import Mathlib

/-!
Verification of the gvisor intrusive doubly-linked list / ring template
(`string_list.go` and its identical sibling instantiations).

Elements are identified by their address, modelled as `Nat`.  The link
fields (`next`/`prev`, the `stringEntry` struct embedded in every element)
of all elements are gathered in a heap `Mem`; nil pointers are `none`.
Each Go method is translated statement by statement; methods that mutate
state return the updated heap and list header.  Code paths that would
dereference a nil pointer in Go return `none` (`Option`).
-/

/-- Heap of link fields: for each element (identified by address) the
`next` and `prev` fields of its embedded `stringEntry`, `none` for nil. -/
@[ext]
structure Mem where
  next : Nat → Option Nat
  prev : Nat → Option Nat

/-- stringEntry.SetNext: assign the next field of element `x`. -/
def Mem.SetNext (s : Mem) (x : Nat) (v : Option Nat) : Mem :=
  ⟨fun y => if y = x then v else s.next y, s.prev⟩

/-- stringEntry.SetPrev: assign the prev field of element `x`. -/
def Mem.SetPrev (s : Mem) (x : Nat) (v : Option Nat) : Mem :=
  ⟨s.next, fun y => if y = x then v else s.prev y⟩

/-- The stringList header: head and tail pointers (nil as `none`). -/
structure stringList where
  head : Option Nat
  tail : Option Nat
deriving DecidableEq

/-- stringList.Reset: `l.head = nil; l.tail = nil`.  The heap is passed
through untouched because the Go method writes only the two header
fields. -/
def stringList.Reset (s : Mem) (_l : stringList) : Mem × stringList :=
  (s, ⟨none, none⟩)

/-- stringList.Empty: `return l.head == nil`. -/
def stringList.Empty (l : stringList) : Bool :=
  l.head.isNone

/-- stringList.Front: `return l.head`. -/
def stringList.Front (l : stringList) : Option Nat :=
  l.head

/-- stringList.Back: `return l.tail`. -/
def stringList.Back (l : stringList) : Option Nat :=
  l.tail

/-- The loop body of stringList.Len: count elements following `next` from
a cursor.  The Go loop has no fuel; `fuel` bounds the number of
iterations so the definition is total, and every theorem about `Len`
supplies enough fuel to cover the whole list. -/
def LenAux (s : Mem) : Nat → Option Nat → Nat
  | 0, _ => 0
  | _ + 1, none => 0
  | fuel + 1, some x => LenAux s fuel (s.next x) + 1

/-- stringList.Len: `for e := l.Front(); e != nil; e = e.Next() \x7b count++ \x7d`. -/
def stringList.Len (s : Mem) (fuel : Nat) (l : stringList) : Nat :=
  LenAux s fuel l.head

/-- stringList.PushFront. -/
def stringList.PushFront (s : Mem) (l : stringList) (e : Nat) : Mem × stringList :=
  let s1 := s.SetNext e l.head
  let s2 := s1.SetPrev e none
  match l.head with
  | some h => (s2.SetPrev h (some e), ⟨some e, l.tail⟩)
  | none => (s2, ⟨some e, some e⟩)

/-- stringList.PushFrontList: result is `(heap, l, m)`; `none` models the
nil-pointer dereference `m.tail.SetNext` that Go would perform on a
corrupt `m` with a head but no tail. -/
def stringList.PushFrontList (s : Mem) (l m : stringList) :
    Option (Mem × stringList × stringList) :=
  match l.head with
  | none => some (s, ⟨m.head, m.tail⟩, ⟨none, none⟩)
  | some lh =>
    match m.head with
    | none => some (s, l, ⟨none, none⟩)
    | some _ =>
      let s1 := s.SetPrev lh m.tail
      match m.tail with
      | none => none
      | some mt => some (s1.SetNext mt (some lh), ⟨m.head, l.tail⟩, ⟨none, none⟩)

/-- stringList.PushBack. -/
def stringList.PushBack (s : Mem) (l : stringList) (e : Nat) : Mem × stringList :=
  let s1 := s.SetNext e none
  let s2 := s1.SetPrev e l.tail
  match l.tail with
  | some t => (s2.SetNext t (some e), ⟨l.head, some e⟩)
  | none => (s2, ⟨some e, some e⟩)

/-- stringList.PushBackList: result is `(heap, l, m)`; `none` models the
nil-pointer dereference `l.tail.SetNext` on a corrupt `l`. -/
def stringList.PushBackList (s : Mem) (l m : stringList) :
    Option (Mem × stringList × stringList) :=
  match l.head with
  | none => some (s, ⟨m.head, m.tail⟩, ⟨none, none⟩)
  | some _ =>
    match m.head with
    | none => some (s, l, ⟨none, none⟩)
    | some mh =>
      match l.tail with
      | none => none
      | some lt =>
        let s1 := s.SetNext lt (some mh)
        let s2 := s1.SetPrev mh (some lt)
        some (s2, ⟨l.head, m.tail⟩, ⟨none, none⟩)

/-- stringList.InsertAfter: insert `e` after `b`. -/
def stringList.InsertAfter (s : Mem) (l : stringList) (b e : Nat) : Mem × stringList :=
  let a := s.next b
  let s1 := s.SetNext e a
  let s2 := s1.SetPrev e (some b)
  let s3 := s2.SetNext b (some e)
  match a with
  | some an => (s3.SetPrev an (some e), l)
  | none => (s3, ⟨l.head, some e⟩)

/-- stringList.InsertBefore: insert `e` before `a`. -/
def stringList.InsertBefore (s : Mem) (l : stringList) (a e : Nat) : Mem × stringList :=
  let b := s.prev a
  let s1 := s.SetNext e (some a)
  let s2 := s1.SetPrev e b
  let s3 := s2.SetPrev a (some e)
  match b with
  | some bn => (s3.SetNext bn (some e), l)
  | none => (s3, ⟨some e, l.tail⟩)

/-- stringList.Remove: unlink `e` from `l`. -/
def stringList.Remove (s : Mem) (l : stringList) (e : Nat) : Mem × stringList :=
  let prev := s.prev e
  let next := s.next e
  let sl1 : Mem × stringList :=
    match prev with
    | some p => (s.SetNext p next, l)
    | none => (s, if l.head = some e then ⟨next, l.tail⟩ else l)
  let sl2 : Mem × stringList :=
    match next with
    | some n => (sl1.1.SetPrev n prev, sl1.2)
    | none => (sl1.1, if sl1.2.tail = some e then ⟨sl1.2.head, prev⟩ else sl1.2)
  ((sl2.1.SetNext e none).SetPrev e none, sl2.2)

/-- stringRingInit: make `e` a singleton ring. -/
def stringRingInit (s : Mem) (e : Nat) : Mem :=
  (s.SetNext e (some e)).SetPrev e (some e)

/-- stringRingAdd: insert `nw` after `old` in `old`'s ring; `none` models
the nil dereference `next.SetPrev` when `old.next` is nil. -/
def stringRingAdd (s : Mem) (old nw : Nat) : Option Mem :=
  match s.next old with
  | none => none
  | some nxt =>
    let s1 := s.SetPrev nxt (some nw)
    let s2 := s1.SetNext nw (some nxt)
    let s3 := s2.SetPrev nw (some old)
    some (s3.SetNext old (some nw))

/-- stringRingRemove: excise `e` from its ring and re-init it as a
singleton; `none` models the nil dereferences on nil neighbours. -/
def stringRingRemove (s : Mem) (e : Nat) : Option Mem :=
  let nextO := s.next e
  let prevO := s.prev e
  match nextO with
  | none => none
  | some nxt =>
    let s1 := s.SetPrev nxt prevO
    match prevO with
    | none => none
    | some prv =>
      let s2 := s1.SetNext prv nextO
      some (stringRingInit s2 e)

/-- stringRingEmpty: `return e.Next() == e`. -/
def stringRingEmpty (s : Mem) (e : Nat) : Bool :=
  s.next e = some e

/-- `nextChain s c xs d`: starting the iteration cursor at `c` and
following `next`, the elements visited are exactly `xs`, after which the
cursor is `d`. -/
def nextChain (s : Mem) : Option Nat → List Nat → Option Nat → Prop
  | c, [], d => c = d
  | c, x :: r, d => c = some x ∧ nextChain s (s.next x) r d

/-- `prevChain s c xs d`: same as `nextChain` but following `prev`. -/
def prevChain (s : Mem) : Option Nat → List Nat → Option Nat → Prop
  | c, [], d => c = d
  | c, x :: r, d => c = some x ∧ prevChain s (s.prev x) r d

/-- `ListRepr s l xs`: the list header `l` represents the element
sequence `xs` in heap `s`: following `next` from `l.head` visits exactly
`xs` and ends at nil, following `prev` from `l.tail` visits exactly
`xs.reverse` and ends at nil, and no element occurs twice. -/
def ListRepr (s : Mem) (l : stringList) (xs : List Nat) : Prop :=
  nextChain s l.head xs none ∧ prevChain s l.tail xs.reverse none ∧ xs.Nodup

/-- Front-to-back iteration (`for e := l.Front(); e != nil; e = e.Next()`),
collecting the visited elements, bounded by `fuel`. -/
def traverseNext (s : Mem) : Nat → Option Nat → List Nat
  | 0, _ => []
  | _ + 1, none => []
  | fuel + 1, some x => x :: traverseNext s fuel (s.next x)

/-- Back-to-front iteration following `prev`, bounded by `fuel`. -/
def traversePrev (s : Mem) : Nat → Option Nat → List Nat
  | 0, _ => []
  | _ + 1, none => []
  | fuel + 1, some x => x :: traversePrev s fuel (s.prev x)

/-- A replayable list operation (for the algebraic claim about operation
sequences). -/
inductive Op where
  | pushFront : Nat → Op
  | pushBack : Nat → Op
  | remove : Nat → Op
deriving DecidableEq

/-- Number of insert operations in a sequence. -/
def countIns : List Op → Nat
  | [] => 0
  | Op.pushFront _ :: ops => countIns ops + 1
  | Op.pushBack _ :: ops => countIns ops + 1
  | Op.remove _ :: ops => countIns ops

/-- Number of remove operations in a sequence. -/
def countRem : List Op → Nat
  | [] => 0
  | Op.pushFront _ :: ops => countRem ops
  | Op.pushBack _ :: ops => countRem ops
  | Op.remove _ :: ops => countRem ops + 1

/-- Replay a sequence of operations against the heap and a list header. -/
def replay (s : Mem) (l : stringList) : List Op → Mem × stringList
  | [] => (s, l)
  | Op.pushFront e :: ops => replay (stringList.PushFront s l e).1 (stringList.PushFront s l e).2 ops
  | Op.pushBack e :: ops => replay (stringList.PushBack s l e).1 (stringList.PushBack s l e).2 ops
  | Op.remove e :: ops => replay (stringList.Remove s l e).1 (stringList.Remove s l e).2 ops

/-- The same replay on the abstract sequence. -/
def absReplay (xs : List Nat) : List Op → List Nat
  | [] => xs
  | Op.pushFront e :: ops => absReplay (e :: xs) ops
  | Op.pushBack e :: ops => absReplay (xs ++ [e]) ops
  | Op.remove e :: ops => absReplay (xs.erase e) ops

/-- Preconditions of a replayed operation sequence: each pushed element is
fresh (not a member, with nil link fields) and each removed element is a
current member.  `xs` is the abstract content of `l`. -/
def validOps : Mem → stringList → List Nat → List Op → Prop
  | _, _, _, [] => True
  | s, l, xs, Op.pushFront e :: ops =>
    (e ∉ xs ∧ s.next e = none ∧ s.prev e = none) ∧
      validOps (stringList.PushFront s l e).1 (stringList.PushFront s l e).2 (e :: xs) ops
  | s, l, xs, Op.pushBack e :: ops =>
    (e ∉ xs ∧ s.next e = none ∧ s.prev e = none) ∧
      validOps (stringList.PushBack s l e).1 (stringList.PushBack s l e).2 (xs ++ [e]) ops
  | s, l, xs, Op.remove e :: ops =>
    e ∈ xs ∧
      validOps (stringList.Remove s l e).1 (stringList.Remove s l e).2 (xs.erase e) ops

/-- Successor index inside a ring of `n` members. -/
def ringIdx {n : Nat} (i : Fin n) : Fin n :=
  ⟨(i.val + 1) % n, Nat.mod_lt _ i.pos⟩

/-- `RingRepr s xs`: the distinct elements `xs` form one ring: each
element's `next` is the cyclically following element of `xs` and its
`prev` the cyclically preceding one. -/
def RingRepr (s : Mem) (xs : List Nat) : Prop :=
  xs ≠ [] ∧ xs.Nodup ∧ ∀ i : Fin xs.length,
    s.next (xs.get i) = some (xs.get (ringIdx i)) ∧
      s.prev (xs.get (ringIdx i)) = some (xs.get i)

/-- Repeated application of `Next()`, with nil propagating. -/
def iterNext (s : Mem) : Nat → Option Nat → Option Nat
  | 0, c => c
  | _ + 1, none => none
  | k + 1, some x => iterNext s k (s.next x)

/-- Scenario helper: push `a`, `b`, `c` to the back of an empty list. -/
def pushThree (s : Mem) (a b c : Nat) : Mem × stringList :=
  let p1 := stringList.PushBack s ⟨none, none⟩ a
  let p2 := stringList.PushBack p1.1 p1.2 b
  stringList.PushBack p2.1 p2.2 c

/-- Sample heap with all link fields nil. -/
def memNil : Mem :=
  ⟨fun _ => none, fun _ => none⟩

/-- Sample heap in which elements 0 and 1 form the list `[0, 1]`. -/
def mem01 : Mem :=
  ⟨fun n => if n = 0 then some 1 else none,
   fun n => if n = 1 then some 0 else none⟩

/-- Sample heap in which elements 5 and 6 form the list `[5, 6]` and
elements 0 and 1 form the list `[0, 1]`. -/
def mem0156 : Mem :=
  ⟨fun n => if n = 0 then some 1 else if n = 5 then some 6 else none,
   fun n => if n = 1 then some 0 else if n = 6 then some 5 else none⟩

/-- Sample heap in which elements 0 and 1 form a two-element ring. -/
def ring01 : Mem :=
  ⟨fun n => if n = 0 then some 1 else if n = 1 then some 0 else none,
   fun n => if n = 0 then some 1 else if n = 1 then some 0 else none⟩

@[simp]
theorem Mem.next_SetNext (s : Mem) (x : Nat) (v : Option Nat) (y : Nat) :
    (s.SetNext x v).next y = if y = x then v else s.next y := rfl

@[simp]
theorem Mem.prev_SetNext (s : Mem) (x : Nat) (v : Option Nat) (y : Nat) :
    (s.SetNext x v).prev y = s.prev y := rfl

@[simp]
theorem Mem.next_SetPrev (s : Mem) (x : Nat) (v : Option Nat) (y : Nat) :
    (s.SetPrev x v).next y = s.next y := rfl

@[simp]
theorem Mem.prev_SetPrev (s : Mem) (x : Nat) (v : Option Nat) (y : Nat) :
    (s.SetPrev x v).prev y = if y = x then v else s.prev y := rfl

@[simp]
theorem nextChain_nil (s : Mem) (c d : Option Nat) :
    nextChain s c [] d ↔ c = d := Iff.rfl

@[simp]
theorem nextChain_cons (s : Mem) (c d : Option Nat) (x : Nat) (r : List Nat) :
    nextChain s c (x :: r) d ↔ c = some x ∧ nextChain s (s.next x) r d := Iff.rfl

@[simp]
theorem prevChain_nil (s : Mem) (c d : Option Nat) :
    prevChain s c [] d ↔ c = d := Iff.rfl

@[simp]
theorem prevChain_cons (s : Mem) (c d : Option Nat) (x : Nat) (r : List Nat) :
    prevChain s c (x :: r) d ↔ c = some x ∧ prevChain s (s.prev x) r d := Iff.rfl

theorem nextChain_append (s : Mem) (c d : Option Nat) (l₁ l₂ : List Nat) :
    nextChain s c (l₁ ++ l₂) d ↔ ∃ m, nextChain s c l₁ m ∧ nextChain s m l₂ d := by
  induction l₁ generalizing c with
  | nil => simp
  | cons x r ih =>
    simp only [List.cons_append, nextChain_cons, ih]
    constructor
    · rintro ⟨hc, m, h1, h2⟩; exact ⟨m, ⟨hc, h1⟩, h2⟩
    · rintro ⟨m, ⟨hc, h1⟩, h2⟩; exact ⟨hc, m, h1, h2⟩

theorem prevChain_append (s : Mem) (c d : Option Nat) (l₁ l₂ : List Nat) :
    prevChain s c (l₁ ++ l₂) d ↔ ∃ m, prevChain s c l₁ m ∧ prevChain s m l₂ d := by
  induction l₁ generalizing c with
  | nil => simp
  | cons x r ih =>
    simp only [List.cons_append, prevChain_cons, ih]
    constructor
    · rintro ⟨hc, m, h1, h2⟩; exact ⟨m, ⟨hc, h1⟩, h2⟩
    · rintro ⟨m, ⟨hc, h1⟩, h2⟩; exact ⟨hc, m, h1, h2⟩

theorem nextChain_congr {s s' : Mem} {c d : Option Nat} {l : List Nat}
    (hs : ∀ x ∈ l, s'.next x = s.next x) (h : nextChain s c l d) :
    nextChain s' c l d := by
  induction l generalizing c with
  | nil => exact h
  | cons x r ih =>
    obtain ⟨hc, hrest⟩ := h
    refine ⟨hc, ?_⟩
    rw [hs x (by simp)]
    exact ih (fun y hy => hs y (by simp [hy])) hrest

theorem prevChain_congr {s s' : Mem} {c d : Option Nat} {l : List Nat}
    (hs : ∀ x ∈ l, s'.prev x = s.prev x) (h : prevChain s c l d) :
    prevChain s' c l d := by
  induction l generalizing c with
  | nil => exact h
  | cons x r ih =>
    obtain ⟨hc, hrest⟩ := h
    refine ⟨hc, ?_⟩
    rw [hs x (by simp)]
    exact ih (fun y hy => hs y (by simp [hy])) hrest

theorem ListRepr.head_eq {s : Mem} {l : stringList} {xs : List Nat}
    (h : ListRepr s l xs) : l.head = xs.head? := by
  obtain ⟨hn, -, -⟩ := h
  cases xs with
  | nil => exact hn
  | cons x r => exact hn.1

theorem ListRepr.tail_eq {s : Mem} {l : stringList} {xs : List Nat}
    (h : ListRepr s l xs) : l.tail = xs.getLast? := by
  obtain ⟨-, hp, -⟩ := h
  rw [← List.head?_reverse]
  cases hrev : xs.reverse with
  | nil => rw [hrev] at hp; exact hp
  | cons y r => rw [hrev] at hp; exact hp.1

theorem ListRepr.prev_head {s : Mem} {l : stringList} {xs : List Nat} {x : Nat}
    (h : ListRepr s l xs) (hx : l.head = some x) : s.prev x = none := by
  obtain ⟨hn, hp, -⟩ := h
  cases xs with
  | nil => rw [hx] at hn; cases hn
  | cons y r =>
    have hyx : y = x := by
      have h1 := hn.1; rw [hx] at h1; exact (Option.some.inj h1).symm
    subst hyx
    rw [List.reverse_cons, prevChain_append] at hp
    obtain ⟨m, -, hm, h2⟩ := hp
    exact h2

theorem ListRepr.next_tail {s : Mem} {l : stringList} {xs : List Nat} {y : Nat}
    (h : ListRepr s l xs) (hy : l.tail = some y) : s.next y = none := by
  obtain ⟨hn, hp, -⟩ := h
  cases hrev : xs.reverse with
  | nil =>
    have hnil : xs = [] := by simpa using congrArg List.reverse hrev
    subst hnil
    rw [List.reverse_nil] at hp
    rw [hy] at hp; cases hp
  | cons t ys =>
    have hxs : xs = ys.reverse ++ [t] := by simpa using congrArg List.reverse hrev
    rw [hrev] at hp
    have hty : t = y := by
      have h1 := hp.1; rw [hy] at h1; exact (Option.some.inj h1).symm
    subst hty
    rw [hxs, nextChain_append] at hn
    obtain ⟨m, -, hm, h2⟩ := hn
    exact h2

theorem pushFront_repr {s : Mem} {l : stringList} {xs : List Nat} {e : Nat}
    (h : ListRepr s l xs) (he : e ∉ xs) :
    ListRepr (stringList.PushFront s l e).1 (stringList.PushFront s l e).2 (e :: xs) := by
  obtain ⟨hn, hp, hd⟩ := h
  cases xs with
  | nil =>
    have hh : l.head = none := hn
    simp only [stringList.PushFront, hh]
    exact ⟨⟨rfl, by simp⟩, ⟨rfl, by simp⟩, by simp⟩
  | cons x r =>
    have hh : l.head = some x := hn.1
    rw [hh] at hn
    have hex : e ≠ x := by intro hc; exact he (hc ▸ List.mem_cons_self x r)
    have her : e ∉ r := fun hc => he (List.mem_cons_of_mem x hc)
    have hxr : x ∉ r := (List.nodup_cons.mp hd).1
    simp only [stringList.PushFront, hh]
    refine ⟨?_, ?_, by simp [hd, he]⟩
    · refine ⟨rfl, ?_⟩
      have hc1 : (((s.SetNext e (some x)).SetPrev e none).SetPrev x (some e)).next e
          = some x := by simp
      rw [hc1]
      refine ⟨rfl, ?_⟩
      have hc2 : (((s.SetNext e (some x)).SetPrev e none).SetPrev x (some e)).next x
          = s.next x := by simp [Ne.symm hex]
      rw [hc2]
      refine nextChain_congr (fun y hy => ?_) hn.2
      have hye : y ≠ e := fun hc => her (hc ▸ hy)
      simp [hye]
    · rw [List.reverse_cons] at hp
      rw [prevChain_append] at hp
      obtain ⟨m, h1, hm, -⟩ := hp
      rw [hm] at h1
      have hrw : (e :: x :: r).reverse = r.reverse ++ ([x] ++ [e]) := by simp
      rw [hrw, prevChain_append]
      refine ⟨some x, ?_, ?_⟩
      · refine prevChain_congr (fun y hy => ?_) h1
        have hy' : y ∈ r := by simpa using hy
        have hye : y ≠ e := fun hc => her (hc ▸ hy')
        have hyx : y ≠ x := fun hc => hxr (hc ▸ hy')
        simp [hye, hyx]
      · refine ⟨rfl, ?_⟩
        have hc3 : (((s.SetNext e (some x)).SetPrev e none).SetPrev x (some e)).prev x
            = some e := by simp
        rw [hc3]
        refine ⟨rfl, ?_⟩
        have hc4 : (((s.SetNext e (some x)).SetPrev e none).SetPrev x (some e)).prev e
            = none := by simp [hex]
        rw [hc4]
        rfl

theorem pushBack_repr {s : Mem} {l : stringList} {xs : List Nat} {e : Nat}
    (h : ListRepr s l xs) (he : e ∉ xs) :
    ListRepr (stringList.PushBack s l e).1 (stringList.PushBack s l e).2 (xs ++ [e]) := by
  obtain ⟨hn, hp, hd⟩ := h
  cases hrev : xs.reverse with
  | nil =>
    have hnil : xs = [] := by simpa using congrArg List.reverse hrev
    subst hnil
    have ht : l.tail = none := by rw [List.reverse_nil] at hp; exact hp
    simp only [stringList.PushBack, ht]
    exact ⟨⟨rfl, by simp⟩, ⟨rfl, by simp⟩, by simp⟩
  | cons t ys =>
    have hxs : xs = ys.reverse ++ [t] := by simpa using congrArg List.reverse hrev
    rw [hrev] at hp
    have ht : l.tail = some t := hp.1
    subst hxs
    have het : e ≠ t := by
      intro hc; exact he (by simp [hc])
    have heys : e ∉ ys.reverse := fun hc => he (List.mem_append_left _ hc)
    have htys : t ∉ ys.reverse := by
      rw [List.nodup_append] at hd
      intro hc
      exact hd.2.2 hc (by simp)
    rw [List.nodup_append] at hd
    have hd' : (ys.reverse ++ [t]).Nodup := List.nodup_append.mpr hd
    rw [nextChain_append] at hn
    obtain ⟨m, hm1, hm2, hm3⟩ := hn
    rw [hm2] at hm1
    simp only [stringList.PushBack, ht]
    refine ⟨?_, ?_, ?_⟩
    · rw [List.append_assoc, nextChain_append]
      refine ⟨some t, ?_, ?_⟩
      · refine nextChain_congr (fun y hy => ?_) hm1
        have hye : y ≠ e := fun hc => heys (hc ▸ hy)
        have hyt : y ≠ t := fun hc => htys (hc ▸ hy)
        simp [hye, hyt]
      · refine ⟨rfl, ?_⟩
        have hc1 : (((s.SetNext e none).SetPrev e (some t)).SetNext t (some e)).next t
            = some e := by simp
        rw [hc1]
        refine ⟨rfl, ?_⟩
        have hc2 : (((s.SetNext e none).SetPrev e (some t)).SetNext t (some e)).next e
            = none := by simp [het]
        rw [hc2]
        rfl
    · rw [show ((ys.reverse ++ [t]) ++ [e]).reverse = e :: t :: ys by simp]
      refine ⟨rfl, ?_⟩
      have hc3 : (((s.SetNext e none).SetPrev e (some t)).SetNext t (some e)).prev e
          = some t := by simp
      rw [hc3]
      have hp' := hp
      rw [ht] at hp'
      refine prevChain_congr (fun y hy => ?_) hp'
      have heys2 : e ∉ ys := fun hc => heys (List.mem_reverse.mpr hc)
      rcases List.mem_cons.mp hy with h1 | h1
      · subst h1; simp [Ne.symm het]
      · have hye : y ≠ e := fun hc => heys2 (hc ▸ h1)
        simp [hye]
    · rw [List.nodup_append]
      exact ⟨hd', by simp, fun y hy => by
        simp only [List.mem_singleton]
        exact fun hc => he (hc ▸ hy)⟩

theorem remove_repr {s : Mem} {l : stringList} {as bs : List Nat} {e : Nat}
    (h : ListRepr s l (as ++ e :: bs)) :
    ListRepr (stringList.Remove s l e).1 (stringList.Remove s l e).2 (as ++ bs) := by
  obtain ⟨hn, hp, hd⟩ := h
  have heas : e ∉ as := by
    rw [List.nodup_append] at hd
    exact fun hc => hd.2.2 hc (by simp)
  have hebs : e ∉ bs := by
    rw [List.nodup_append] at hd
    exact (List.nodup_cons.mp hd.2.1).1
  have hdas : as.Nodup := (List.nodup_append.mp hd).1
  have hdbs : bs.Nodup := (List.nodup_cons.mp (List.nodup_append.mp hd).2.1).2
  have hdisj : ∀ a ∈ as, a ∉ bs := by
    rw [List.nodup_append] at hd
    exact fun a ha hb => hd.2.2 ha (by simp [hb])
  have hdab : (as ++ bs).Nodup := by
    rw [List.nodup_append]
    exact ⟨hdas, hdbs, fun a ha hb => hdisj a ha hb⟩
  rw [nextChain_append] at hn
  obtain ⟨m1, hna, hm1, hnb⟩ := hn
  rw [hm1] at hna
  rw [show (as ++ e :: bs).reverse = bs.reverse ++ e :: as.reverse by simp] at hp
  rw [prevChain_append] at hp
  obtain ⟨m2, hpb, hm2, hpa⟩ := hp
  rw [hm2] at hpb
  cases hra : as.reverse with
  | nil =>
    have hanil : as = [] := by simpa using congrArg List.reverse hra
    subst hanil
    have hpe : s.prev e = none := by rw [hra] at hpa; exact hpa
    have hhead : l.head = some e := hna
    cases bs with
    | nil =>
      have hnxt : s.next e = none := hnb
      have htail : l.tail = some e := by simpa using hpb
      have hred : stringList.Remove s l e
          = ((s.SetNext e none).SetPrev e none, ⟨none, none⟩) := by
        simp [stringList.Remove, hpe, hnxt, hhead, htail]
      rw [hred]
      exact ⟨rfl, rfl, by simp⟩
    | cons n bs' =>
      have hnxt : s.next e = some n := hnb.1
      have hnb2 : nextChain s (s.next n) bs' none := hnb.2
      have hen : e ≠ n := fun hc => hebs (by simp [hc])
      have hebs' : e ∉ bs' := fun hc => hebs (by simp [hc])
      have hnbs' : n ∉ bs' := (List.nodup_cons.mp hdbs).1
      rw [List.reverse_cons, prevChain_append] at hpb
      obtain ⟨m4, hpb1, hm4, hpn⟩ := hpb
      rw [hm4] at hpb1
      have hred : stringList.Remove s l e
          = (((s.SetPrev n none).SetNext e none).SetPrev e none, ⟨some n, l.tail⟩) := by
        simp [stringList.Remove, hpe, hnxt, hhead]
      rw [hred]
      refine ⟨?_, ?_, by simpa using hdab⟩
      · refine ⟨rfl, ?_⟩
        have hc1 : (((s.SetPrev n none).SetNext e none).SetPrev e none).next n
            = s.next n := by simp [Ne.symm hen]
        rw [hc1]
        refine nextChain_congr (fun y hy => ?_) hnb2
        have h1 : y ≠ e := fun hc => hebs' (hc ▸ hy)
        simp [h1]
      · rw [show (([] ++ n :: bs' : List Nat)).reverse = bs'.reverse ++ [n] by simp,
          prevChain_append]
        refine ⟨some n, ?_, ?_⟩
        · refine prevChain_congr (fun y hy => ?_) hpb1
          have h1 : y ≠ e := fun hc => hebs' (hc ▸ List.mem_reverse.mp hy)
          have h2 : y ≠ n := fun hc => hnbs' (hc ▸ List.mem_reverse.mp hy)
          simp [h1, h2]
        · refine ⟨rfl, ?_⟩
          have hc2 : (((s.SetPrev n none).SetNext e none).SetPrev e none).prev n
              = none := by simp [Ne.symm hen]
          rw [hc2]; rfl
  | cons p w =>
    have haseq : as = w.reverse ++ [p] := by simpa using congrArg List.reverse hra
    rw [hra] at hpa
    have hpe : s.prev e = some p := hpa.1
    have hpaw : prevChain s (s.prev p) w none := hpa.2
    have hpas : p ∈ as := by rw [haseq]; simp
    have hep : e ≠ p := fun hc => heas (hc ▸ hpas)
    have hpw : p ∉ w.reverse := by
      rw [haseq, List.nodup_append] at hdas
      intro hc; exact hdas.2.2 hc (by simp)
    have hew : e ∉ w.reverse := fun hc => heas (haseq ▸ List.mem_append_left _ hc)
    have hew2 : e ∉ w := fun hc => hew (List.mem_reverse.mpr hc)
    rw [haseq, nextChain_append] at hna
    obtain ⟨m3, hw3, hm3, hp3⟩ := hna
    rw [hm3] at hw3
    cases bs with
    | nil =>
      have hnxt : s.next e = none := hnb
      have htail : l.tail = some e := by simpa using hpb
      have hred : stringList.Remove s l e
          = (((s.SetNext p none).SetNext e none).SetPrev e none, ⟨l.head, some p⟩) := by
        simp [stringList.Remove, hpe, hnxt, htail]
      rw [hred]
      refine ⟨?_, ?_, by simpa using hdab⟩
      · rw [List.append_nil, haseq, nextChain_append]
        refine ⟨some p, ?_, ?_⟩
        · refine nextChain_congr (fun y hy => ?_) hw3
          have h1 : y ≠ e := fun hc => hew (hc ▸ hy)
          have h2 : y ≠ p := fun hc => hpw (hc ▸ hy)
          simp [h1, h2]
        · refine ⟨rfl, ?_⟩
          have hc1 : (((s.SetNext p none).SetNext e none).SetPrev e none).next p
              = none := by simp [Ne.symm hep]
          rw [hc1]; rfl
      · rw [List.append_nil, hra]
        refine ⟨rfl, ?_⟩
        have hc2 : (((s.SetNext p none).SetNext e none).SetPrev e none).prev p
            = s.prev p := by simp [Ne.symm hep]
        rw [hc2]
        refine prevChain_congr (fun y hy => ?_) hpaw
        have h1 : y ≠ e := fun hc => hew2 (hc ▸ hy)
        simp [h1]
    | cons n bs' =>
      have hnxt : s.next e = some n := hnb.1
      have hnb2 : nextChain s (s.next n) bs' none := hnb.2
      have hen : e ≠ n := fun hc => hebs (by simp [hc])
      have hebs' : e ∉ bs' := fun hc => hebs (by simp [hc])
      have hnbs' : n ∉ bs' := (List.nodup_cons.mp hdbs).1
      have hpn2 : p ≠ n := fun hc => hdisj p hpas (by simp [hc])
      have hpbs' : p ∉ bs' := fun hc => hdisj p hpas (by simp [hc])
      rw [List.reverse_cons, prevChain_append] at hpb
      obtain ⟨m4, hpb1, hm4, hpn⟩ := hpb
      rw [hm4] at hpb1
      have hred : stringList.Remove s l e
          = ((((s.SetNext p (some n)).SetPrev n (some p)).SetNext e none).SetPrev e none,
            l) := by
        simp [stringList.Remove, hpe, hnxt]
      rw [hred]
      refine ⟨?_, ?_, by simpa using hdab⟩
      · rw [haseq, nextChain_append]
        refine ⟨some n, ?_, ?_⟩
        · rw [nextChain_append]
          refine ⟨some p, ?_, ?_⟩
          · refine nextChain_congr (fun y hy => ?_) hw3
            have h1 : y ≠ e := fun hc => hew (hc ▸ hy)
            have h2 : y ≠ p := fun hc => hpw (hc ▸ hy)
            simp [h1, h2]
          · refine ⟨rfl, ?_⟩
            have hc1 : ((((s.SetNext p (some n)).SetPrev n (some p)).SetNext e
                none).SetPrev e none).next p = some n := by simp [Ne.symm hep]
            rw [hc1]; rfl
        · refine ⟨rfl, ?_⟩
          have hc2 : ((((s.SetNext p (some n)).SetPrev n (some p)).SetNext e
              none).SetPrev e none).next n = s.next n := by
            simp [Ne.symm hen, Ne.symm hpn2]
          rw [hc2]
          refine nextChain_congr (fun y hy => ?_) hnb2
          have h1 : y ≠ e := fun hc => hebs' (hc ▸ hy)
          have h2 : y ≠ p := fun hc => hpbs' (hc ▸ hy)
          simp [h1, h2]
      · rw [haseq, show (w.reverse ++ [p] ++ n :: bs').reverse
            = (bs'.reverse ++ [n]) ++ p :: w by simp, prevChain_append]
        refine ⟨some p, ?_, ?_⟩
        · rw [prevChain_append]
          refine ⟨some n, ?_, ?_⟩
          · refine prevChain_congr (fun y hy => ?_) hpb1
            have hy' : y ∈ bs' := List.mem_reverse.mp hy
            have h1 : y ≠ e := fun hc => hebs' (hc ▸ hy')
            have h2 : y ≠ n := fun hc => hnbs' (hc ▸ hy')
            simp [h1, h2]
          · refine ⟨rfl, ?_⟩
            have hc3 : ((((s.SetNext p (some n)).SetPrev n (some p)).SetNext e
                none).SetPrev e none).prev n = some p := by simp [Ne.symm hen]
            rw [hc3]; rfl
        · refine ⟨rfl, ?_⟩
          have hc4 : ((((s.SetNext p (some n)).SetPrev n (some p)).SetNext e
              none).SetPrev e none).prev p = s.prev p := by
            simp [Ne.symm hep, hpn2]
          rw [hc4]
          refine prevChain_congr (fun y hy => ?_) hpaw
          have h1 : y ≠ e := fun hc => hew2 (hc ▸ hy)
          have h2 : y ≠ n := fun hc => (hdisj y (by
            rw [haseq]; exact List.mem_append_left _ (List.mem_reverse.mpr hy))) (by simp [hc])
          simp [h1, h2]

theorem remove_erase_repr {s : Mem} {l : stringList} {xs : List Nat} {e : Nat}
    (h : ListRepr s l xs) (he : e ∈ xs) :
    ListRepr (stringList.Remove s l e).1 (stringList.Remove s l e).2 (xs.erase e) := by
  obtain ⟨as, bs, rfl⟩ := List.append_of_mem he
  have heas : e ∉ as := by
    have hd := h.2.2
    rw [List.nodup_append] at hd
    exact fun hc => hd.2.2 hc (by simp)
  rw [List.erase_append_right _ heas, List.erase_cons_head]
  exact remove_repr h

theorem nodup_insert_mid {as bs : List Nat} {b e : Nat}
    (hd : (as ++ b :: bs).Nodup) (he : e ∉ as ++ b :: bs) :
    (as ++ b :: e :: bs).Nodup := by
  have hperm : List.Perm ((as ++ [b]) ++ e :: bs) (e :: ((as ++ [b]) ++ bs)) :=
    List.perm_middle
  have hl : (as ++ [b]) ++ e :: bs = as ++ b :: e :: bs := by simp
  have hl2 : (as ++ [b]) ++ bs = as ++ b :: bs := by simp
  rw [← hl, hperm.nodup_iff, List.nodup_cons, hl2]
  exact ⟨he, hd⟩

theorem nodup_insert_before {as bs : List Nat} {b e : Nat}
    (hd : (as ++ b :: bs).Nodup) (he : e ∉ as ++ b :: bs) :
    (as ++ e :: b :: bs).Nodup := by
  have hperm : List.Perm (as ++ e :: (b :: bs)) (e :: (as ++ b :: bs)) :=
    List.perm_middle
  rw [hperm.nodup_iff, List.nodup_cons]
  exact ⟨he, hd⟩

theorem insertAfter_repr {s : Mem} {l : stringList} {as bs : List Nat} {b e : Nat}
    (h : ListRepr s l (as ++ b :: bs)) (he : e ∉ as ++ b :: bs) :
    ListRepr (stringList.InsertAfter s l b e).1 (stringList.InsertAfter s l b e).2
      (as ++ b :: e :: bs) := by
  obtain ⟨hn, hp, hd⟩ := h
  have heb : e ≠ b := fun hc => he (by simp [hc])
  have heas : e ∉ as := fun hc => he (List.mem_append_left _ hc)
  have hebs : e ∉ bs := fun hc => he (by simp [hc])
  have hbas : b ∉ as := by
    rw [List.nodup_append] at hd
    exact fun hc => hd.2.2 hc (by simp)
  have hbbs : b ∉ bs := (List.nodup_cons.mp (List.nodup_append.mp hd).2.1).1
  have hdbs : bs.Nodup := (List.nodup_cons.mp (List.nodup_append.mp hd).2.1).2
  have hdisj : ∀ a ∈ as, a ∉ bs := by
    rw [List.nodup_append] at hd
    exact fun a ha hb => hd.2.2 ha (by simp [hb])
  rw [nextChain_append] at hn
  obtain ⟨m1, hna, hm1, hnbs⟩ := hn
  rw [hm1] at hna
  rw [show (as ++ b :: bs).reverse = bs.reverse ++ b :: as.reverse by simp] at hp
  rw [prevChain_append] at hp
  obtain ⟨m2, hpb, hm2, hpa⟩ := hp
  rw [hm2] at hpb
  cases bs with
  | nil =>
    have hnxtb : s.next b = none := hnbs
    have hred : stringList.InsertAfter s l b e
        = (((s.SetNext e none).SetPrev e (some b)).SetNext b (some e),
          ⟨l.head, some e⟩) := by
      simp [stringList.InsertAfter, hnxtb]
    rw [hred]
    refine ⟨?_, ?_, nodup_insert_mid hd he⟩
    · rw [nextChain_append]
      refine ⟨some b, ?_, ?_⟩
      · refine nextChain_congr (fun y hy => ?_) hna
        have h1 : y ≠ e := fun hc => heas (hc ▸ hy)
        have h2 : y ≠ b := fun hc => hbas (hc ▸ hy)
        simp [h1, h2]
      · refine ⟨rfl, ?_⟩
        have hc1 : (((s.SetNext e none).SetPrev e (some b)).SetNext b (some e)).next b
            = some e := by simp
        rw [hc1]
        refine ⟨rfl, ?_⟩
        have hc2 : (((s.SetNext e none).SetPrev e (some b)).SetNext b (some e)).next e
            = none := by simp [heb]
        rw [hc2]; rfl
    · rw [show (as ++ b :: e :: ([] : List Nat)).reverse = e :: b :: as.reverse by simp]
      refine ⟨rfl, ?_⟩
      have hc3 : (((s.SetNext e none).SetPrev e (some b)).SetNext b (some e)).prev e
          = some b := by simp
      rw [hc3]
      refine ⟨rfl, ?_⟩
      have hc4 : (((s.SetNext e none).SetPrev e (some b)).SetNext b (some e)).prev b
          = s.prev b := by simp [Ne.symm heb]
      rw [hc4]
      refine prevChain_congr (fun y hy => ?_) hpa
      have h1 : y ≠ e := fun hc => heas (hc ▸ List.mem_reverse.mp hy)
      simp [h1]
  | cons n bs' =>
    have hnxtb : s.next b = some n := hnbs.1
    have hnbs2 : nextChain s (s.next n) bs' none := hnbs.2
    have hen : e ≠ n := fun hc => hebs (by simp [hc])
    have hbn : b ≠ n := fun hc => hbbs (by simp [hc])
    have hebs' : e ∉ bs' := fun hc => hebs (by simp [hc])
    have hbbs' : b ∉ bs' := fun hc => hbbs (by simp [hc])
    have hnbs' : n ∉ bs' := (List.nodup_cons.mp hdbs).1
    have hnas : n ∉ as := fun hc => hdisj n hc (by simp)
    rw [List.reverse_cons, prevChain_append] at hpb
    obtain ⟨m4, hpb1, hm4, hpbn⟩ := hpb
    rw [hm4] at hpb1
    have hred : stringList.InsertAfter s l b e
        = ((((s.SetNext e (some n)).SetPrev e (some b)).SetNext b (some e)).SetPrev n
          (some e), l) := by
      simp [stringList.InsertAfter, hnxtb]
    rw [hred]
    refine ⟨?_, ?_, nodup_insert_mid hd he⟩
    · rw [nextChain_append]
      refine ⟨some b, ?_, ?_⟩
      · refine nextChain_congr (fun y hy => ?_) hna
        have h1 : y ≠ e := fun hc => heas (hc ▸ hy)
        have h2 : y ≠ b := fun hc => hbas (hc ▸ hy)
        simp [h1, h2]
      · refine ⟨rfl, ?_⟩
        have hc1 : ((((s.SetNext e (some n)).SetPrev e (some b)).SetNext b
            (some e)).SetPrev n (some e)).next b = some e := by simp
        rw [hc1]
        refine ⟨rfl, ?_⟩
        have hc2 : ((((s.SetNext e (some n)).SetPrev e (some b)).SetNext b
            (some e)).SetPrev n (some e)).next e = some n := by simp [heb]
        rw [hc2]
        refine ⟨rfl, ?_⟩
        have hc3 : ((((s.SetNext e (some n)).SetPrev e (some b)).SetNext b
            (some e)).SetPrev n (some e)).next n = s.next n := by
          simp [Ne.symm hen, Ne.symm hbn]
        rw [hc3]
        refine nextChain_congr (fun y hy => ?_) hnbs2
        have h1 : y ≠ e := fun hc => hebs' (hc ▸ hy)
        have h2 : y ≠ b := fun hc => hbbs' (hc ▸ hy)
        simp [h1, h2]
    · rw [show (as ++ b :: e :: n :: bs').reverse
          = bs'.reverse ++ n :: e :: b :: as.reverse by simp]
      rw [prevChain_append]
      refine ⟨some n, ?_, ?_⟩
      · refine prevChain_congr (fun y hy => ?_) hpb1
        have hy' : y ∈ bs' := List.mem_reverse.mp hy
        have h1 : y ≠ e := fun hc => hebs' (hc ▸ hy')
        have h2 : y ≠ n := fun hc => hnbs' (hc ▸ hy')
        simp [h1, h2]
      · refine ⟨rfl, ?_⟩
        have hc4 : ((((s.SetNext e (some n)).SetPrev e (some b)).SetNext b
            (some e)).SetPrev n (some e)).prev n = some e := by simp
        rw [hc4]
        refine ⟨rfl, ?_⟩
        have hc5 : ((((s.SetNext e (some n)).SetPrev e (some b)).SetNext b
            (some e)).SetPrev n (some e)).prev e = some b := by simp [hen]
        rw [hc5]
        refine ⟨rfl, ?_⟩
        have hc6 : ((((s.SetNext e (some n)).SetPrev e (some b)).SetNext b
            (some e)).SetPrev n (some e)).prev b = s.prev b := by
          simp [hbn, Ne.symm heb]
        rw [hc6]
        refine prevChain_congr (fun y hy => ?_) hpa
        have hy' : y ∈ as := List.mem_reverse.mp hy
        have h1 : y ≠ e := fun hc => heas (hc ▸ hy')
        have h2 : y ≠ n := fun hc => hnas (hc ▸ hy')
        simp [h1, h2]

theorem insertBefore_repr {s : Mem} {l : stringList} {as bs : List Nat} {a e : Nat}
    (h : ListRepr s l (as ++ a :: bs)) (he : e ∉ as ++ a :: bs) :
    ListRepr (stringList.InsertBefore s l a e).1 (stringList.InsertBefore s l a e).2
      (as ++ e :: a :: bs) := by
  obtain ⟨hn, hp, hd⟩ := h
  have hea : e ≠ a := fun hc => he (by simp [hc])
  have heas : e ∉ as := fun hc => he (List.mem_append_left _ hc)
  have hebs : e ∉ bs := fun hc => he (by simp [hc])
  have haas : a ∉ as := by
    rw [List.nodup_append] at hd
    exact fun hc => hd.2.2 hc (by simp)
  have habs : a ∉ bs := (List.nodup_cons.mp (List.nodup_append.mp hd).2.1).1
  have hdisj : ∀ x ∈ as, x ∉ bs := by
    rw [List.nodup_append] at hd
    exact fun x hx hb => hd.2.2 hx (by simp [hb])
  rw [nextChain_append] at hn
  obtain ⟨m1, hna, hm1, hnbs⟩ := hn
  rw [hm1] at hna
  have hnbs2 : nextChain s (s.next a) bs none := hnbs
  rw [show (as ++ a :: bs).reverse = bs.reverse ++ a :: as.reverse by simp] at hp
  rw [prevChain_append] at hp
  obtain ⟨m2, hpb, hm2, hpa⟩ := hp
  rw [hm2] at hpb
  cases hra : as.reverse with
  | nil =>
    have hanil : as = [] := by simpa using congrArg List.reverse hra
    subst hanil
    have hpe : s.prev a = none := by rw [hra] at hpa; exact hpa
    have hred : stringList.InsertBefore s l a e
        = (((s.SetNext e (some a)).SetPrev e none).SetPrev a (some e),
          ⟨some e, l.tail⟩) := by
      simp [stringList.InsertBefore, hpe]
    rw [hred]
    refine ⟨?_, ?_, nodup_insert_before hd he⟩
    · refine ⟨rfl, ?_⟩
      have hc1 : (((s.SetNext e (some a)).SetPrev e none).SetPrev a (some e)).next e
          = some a := by simp
      rw [hc1]
      refine ⟨rfl, ?_⟩
      have hc2 : (((s.SetNext e (some a)).SetPrev e none).SetPrev a (some e)).next a
          = s.next a := by simp [Ne.symm hea]
      rw [hc2]
      refine nextChain_congr (fun y hy => ?_) hnbs2
      have h1 : y ≠ e := fun hc => hebs (hc ▸ hy)
      simp [h1]
    · rw [show (([] : List Nat) ++ e :: a :: bs).reverse = bs.reverse ++ a :: e :: [] by
        simp]
      rw [prevChain_append]
      refine ⟨some a, ?_, ?_⟩
      · refine prevChain_congr (fun y hy => ?_) hpb
        have hy' : y ∈ bs := List.mem_reverse.mp hy
        have h1 : y ≠ e := fun hc => hebs (hc ▸ hy')
        have h2 : y ≠ a := fun hc => habs (hc ▸ hy')
        simp [h1, h2]
      · refine ⟨rfl, ?_⟩
        have hc3 : (((s.SetNext e (some a)).SetPrev e none).SetPrev a (some e)).prev a
            = some e := by simp
        rw [hc3]
        refine ⟨rfl, ?_⟩
        have hc4 : (((s.SetNext e (some a)).SetPrev e none).SetPrev a (some e)).prev e
            = none := by simp [hea]
        rw [hc4]; rfl
  | cons p w =>
    have haseq : as = w.reverse ++ [p] := by simpa using congrArg List.reverse hra
    rw [hra] at hpa
    have hpe : s.prev a = some p := hpa.1
    have hpaw : prevChain s (s.prev p) w none := hpa.2
    have hpas : p ∈ as := by rw [haseq]; simp
    have hep : e ≠ p := fun hc => heas (hc ▸ hpas)
    have hap : a ≠ p := fun hc => haas (hc ▸ hpas)
    have hpw : p ∉ w.reverse := by
      have hdas : as.Nodup := (List.nodup_append.mp hd).1
      rw [haseq, List.nodup_append] at hdas
      intro hc; exact hdas.2.2 hc (by simp)
    have hew : e ∉ w.reverse := fun hc => heas (haseq ▸ List.mem_append_left _ hc)
    have haw : a ∉ w.reverse := fun hc => haas (haseq ▸ List.mem_append_left _ hc)
    have hpbs : p ∉ bs := hdisj p hpas
    rw [haseq, nextChain_append] at hna
    obtain ⟨m3, hw3, hm3, hp3⟩ := hna
    rw [hm3] at hw3
    have hnp : s.next p = some a := hp3
    have hred : stringList.InsertBefore s l a e
        = ((((s.SetNext e (some a)).SetPrev e (some p)).SetPrev a (some e)).SetNext p
          (some e), l) := by
      simp [stringList.InsertBefore, hpe]
    rw [hred]
    refine ⟨?_, ?_, nodup_insert_before hd he⟩
    · rw [haseq, show (w.reverse ++ [p]) ++ e :: a :: bs
          = w.reverse ++ p :: e :: a :: bs by simp]
      rw [nextChain_append]
      refine ⟨some p, ?_, ?_⟩
      · refine nextChain_congr (fun y hy => ?_) hw3
        have h1 : y ≠ e := fun hc => hew (hc ▸ hy)
        have h2 : y ≠ p := fun hc => hpw (hc ▸ hy)
        simp [h1, h2]
      · refine ⟨rfl, ?_⟩
        have hc1 : ((((s.SetNext e (some a)).SetPrev e (some p)).SetPrev a
            (some e)).SetNext p (some e)).next p = some e := by simp
        rw [hc1]
        refine ⟨rfl, ?_⟩
        have hc2 : ((((s.SetNext e (some a)).SetPrev e (some p)).SetPrev a
            (some e)).SetNext p (some e)).next e = some a := by simp [hep]
        rw [hc2]
        refine ⟨rfl, ?_⟩
        have hc3 : ((((s.SetNext e (some a)).SetPrev e (some p)).SetPrev a
            (some e)).SetNext p (some e)).next a = s.next a := by
          simp [hap, Ne.symm hea]
        rw [hc3]
        refine nextChain_congr (fun y hy => ?_) hnbs2
        have h1 : y ≠ e := fun hc => hebs (hc ▸ hy)
        have h2 : y ≠ p := fun hc => hpbs (hc ▸ hy)
        simp [h1, h2]
    · rw [haseq, show ((w.reverse ++ [p]) ++ e :: a :: bs).reverse
          = bs.reverse ++ a :: e :: p :: w by simp]
      rw [prevChain_append]
      refine ⟨some a, ?_, ?_⟩
      · refine prevChain_congr (fun y hy => ?_) hpb
        have hy' : y ∈ bs := List.mem_reverse.mp hy
        have h1 : y ≠ e := fun hc => hebs (hc ▸ hy')
        have h2 : y ≠ a := fun hc => habs (hc ▸ hy')
        simp [h1, h2]
      · refine ⟨rfl, ?_⟩
        have hc4 : ((((s.SetNext e (some a)).SetPrev e (some p)).SetPrev a
            (some e)).SetNext p (some e)).prev a = some e := by simp
        rw [hc4]
        refine ⟨rfl, ?_⟩
        have hc5 : ((((s.SetNext e (some a)).SetPrev e (some p)).SetPrev a
            (some e)).SetNext p (some e)).prev e = some p := by simp [hea]
        rw [hc5]
        refine ⟨rfl, ?_⟩
        have hc6 : ((((s.SetNext e (some a)).SetPrev e (some p)).SetPrev a
            (some e)).SetNext p (some e)).prev p = s.prev p := by
          simp [Ne.symm hap, Ne.symm hep]
        rw [hc6]
        refine prevChain_congr (fun y hy => ?_) hpaw
        have h1 : y ≠ e := fun hc => hew (hc ▸ List.mem_reverse.mpr hy)
        have h2 : y ≠ a := fun hc => haw (hc ▸ List.mem_reverse.mpr hy)
        simp [h1, h2]

theorem pushFrontList_repr {s : Mem} {l m : stringList} {xs ys : List Nat}
    (h : ListRepr s l xs) (hm : ListRepr s m ys) (hdisj : ∀ a ∈ xs, a ∉ ys) :
    ∃ s' l', stringList.PushFrontList s l m = some (s', l', ⟨none, none⟩) ∧
      ListRepr s' l' (ys ++ xs) ∧ (l.head = none → s' = s ∧ l' = ⟨m.head, m.tail⟩) ∧
      (m.head = none → s' = s ∧ l' = l) := by
  obtain ⟨hn, hp, hd⟩ := h
  obtain ⟨hmn, hmp, hmd⟩ := hm
  cases hxs0 : xs with
  | nil =>
    subst hxs0
    have hh : l.head = none := hn
    refine ⟨s, ⟨m.head, m.tail⟩, ?_, ?_, fun _ => ⟨rfl, rfl⟩, fun hmh => ⟨rfl, ?_⟩⟩
    · simp [stringList.PushFrontList, hh]
    · rw [List.append_nil]
      exact ⟨hmn, hmp, hmd⟩
    · rw [hmh] at hmn
      cases hys2 : ys with
      | cons y yr => rw [hys2] at hmn; exact absurd hmn.1 (by simp)
      | nil =>
        rw [hys2] at hmp
        have hmt : m.tail = none := hmp
        have hlt : l.tail = none := hp
        cases l with
        | mk a b => simp_all
  | cons x xr =>
    subst hxs0
    have hh : l.head = some x := hn.1
    rw [hh] at hn
    cases hys0 : ys with
    | nil =>
      subst hys0
      have hmh : m.head = none := hmn
      refine ⟨s, l, ?_, ?_, ?_, fun _ => ⟨rfl, rfl⟩⟩
      · simp [stringList.PushFrontList, hh, hmh]
      · rw [List.nil_append]
        refine ⟨?_, hp, hd⟩
        rw [hh]
        exact hn
      · intro hc; rw [hh] at hc; cases hc
    | cons y yr =>
      subst hys0
      have hmh : m.head = some y := hmn.1
      cases hrev : (y :: yr).reverse with
      | nil => simp at hrev
      | cons t w =>
        have hys : y :: yr = w.reverse ++ [t] := by
          simpa using congrArg List.reverse hrev
        rw [hrev] at hmp
        have hmt : m.tail = some t := hmp.1
        have hmp2 : prevChain s (s.prev t) w none := hmp.2
        have htys : t ∈ y :: yr := by rw [hys]; simp
        have htx : t ≠ x := fun hc => hdisj x (by simp) (hc ▸ htys)
        have hxys : x ∉ y :: yr := hdisj x (by simp)
        have htw : t ∉ w.reverse := by
          have hdys := hmd
          rw [hys, List.nodup_append] at hdys
          intro hc; exact hdys.2.2 hc (by simp)
        have hxxr : x ∉ xr := (List.nodup_cons.mp hd).1
        have hred : stringList.PushFrontList s l m
            = some ((s.SetPrev x (some t)).SetNext t (some x),
              ⟨some y, l.tail⟩, ⟨none, none⟩) := by
          simp [stringList.PushFrontList, hh, hmh, hmt]
        refine ⟨(s.SetPrev x (some t)).SetNext t (some x), ⟨some y, l.tail⟩, hred,
          ⟨?_, ?_, ?_⟩, ?_, ?_⟩
        rotate_left 3
        · intro hc; rw [hh] at hc; cases hc
        · intro hc; rw [hmh] at hc; cases hc
        · rw [show ((y :: yr) ++ x :: xr) = w.reverse ++ ([t] ++ x :: xr) by
            rw [hys]; simp]
          rw [nextChain_append]
          refine ⟨some t, ?_, ?_⟩
          · rw [hmh, hys, nextChain_append] at hmn
            obtain ⟨m5, hw5, hm5, ht5⟩ := hmn
            rw [hm5] at hw5
            refine nextChain_congr (fun z hz => ?_) hw5
            have hzt : z ≠ t := fun hc => htw (hc ▸ hz)
            simp [hzt]
          · refine ⟨rfl, ?_⟩
            have hc1 : ((s.SetPrev x (some t)).SetNext t (some x)).next t = some x := by
              simp
            rw [hc1]
            refine nextChain_congr (fun z hz => ?_) hn
            have hzt : z ≠ t := fun hc => hdisj z hz (hc ▸ htys)
            simp [hzt]
        · rw [show ((y :: yr) ++ x :: xr).reverse = (xr.reverse ++ [x]) ++ t :: w by
            rw [List.reverse_append, hrev, List.reverse_cons]]
          rw [prevChain_append]
          refine ⟨some t, ?_, ?_⟩
          · rw [List.reverse_cons, prevChain_append] at hp
            obtain ⟨m6, hx6, hm6, hx0⟩ := hp
            rw [hm6] at hx6
            rw [prevChain_append]
            refine ⟨some x, ?_, ?_⟩
            · refine prevChain_congr (fun z hz => ?_) hx6
              have hzx : z ≠ x := fun hc => hxxr (hc ▸ List.mem_reverse.mp hz)
              simp [hzx]
            · refine ⟨rfl, ?_⟩
              have hc2 : ((s.SetPrev x (some t)).SetNext t (some x)).prev x = some t := by
                simp
              rw [hc2]; rfl
          · refine ⟨rfl, ?_⟩
            have hc3 : ((s.SetPrev x (some t)).SetNext t (some x)).prev t = s.prev t := by
              simp [htx]
            rw [hc3]
            refine prevChain_congr (fun z hz => ?_) hmp2
            have hzys : z ∈ y :: yr := by
              rw [hys]; exact List.mem_append_left _ (List.mem_reverse.mpr hz)
            have hzx : z ≠ x := fun hc => hxys (hc ▸ hzys)
            simp [hzx]
        · rw [List.nodup_append]
          exact ⟨hmd, hd, fun a ha hb => hdisj a hb ha⟩

theorem pushBackList_repr {s : Mem} {l m : stringList} {xs ys : List Nat}
    (h : ListRepr s l xs) (hm : ListRepr s m ys) (hdisj : ∀ a ∈ xs, a ∉ ys) :
    ∃ s' l', stringList.PushBackList s l m = some (s', l', ⟨none, none⟩) ∧
      ListRepr s' l' (xs ++ ys) ∧ (l.head = none → s' = s ∧ l' = ⟨m.head, m.tail⟩) ∧
      (m.head = none → s' = s ∧ l' = l) := by
  obtain ⟨hn, hp, hd⟩ := h
  obtain ⟨hmn, hmp, hmd⟩ := hm
  cases hxs0 : xs with
  | nil =>
    subst hxs0
    have hh : l.head = none := hn
    refine ⟨s, ⟨m.head, m.tail⟩, ?_, ?_, fun _ => ⟨rfl, rfl⟩, fun hmh => ⟨rfl, ?_⟩⟩
    · simp [stringList.PushBackList, hh]
    · rw [List.nil_append]
      exact ⟨hmn, hmp, hmd⟩
    · rw [hmh] at hmn
      cases hys2 : ys with
      | cons y yr => rw [hys2] at hmn; exact absurd hmn.1 (by simp)
      | nil =>
        rw [hys2] at hmp
        have hmt : m.tail = none := hmp
        have hlt : l.tail = none := hp
        cases l with
        | mk a b => simp_all
  | cons x xr =>
    subst hxs0
    have hh : l.head = some x := hn.1
    cases hys0 : ys with
    | nil =>
      subst hys0
      have hmh : m.head = none := hmn
      refine ⟨s, l, ?_, ?_, ?_, fun _ => ⟨rfl, rfl⟩⟩
      · simp [stringList.PushBackList, hh, hmh]
      · rw [List.append_nil]
        exact ⟨hn, hp, hd⟩
      · intro hc; rw [hh] at hc; cases hc
    | cons y yr =>
      subst hys0
      have hmh : m.head = some y := hmn.1
      rw [hmh] at hmn
      cases hrev : (x :: xr).reverse with
      | nil => simp at hrev
      | cons t v =>
        have hxs : x :: xr = v.reverse ++ [t] := by
          simpa using congrArg List.reverse hrev
        rw [hrev] at hp
        have hlt : l.tail = some t := hp.1
        have hpv : prevChain s (s.prev t) v none := hp.2
        have htxs : t ∈ x :: xr := by rw [hxs]; simp
        have hty : t ≠ y := fun hc => hdisj t htxs (by simp [hc])
        have hyxs : ∀ z ∈ x :: xr, z ≠ y := fun z hz hc => hdisj z hz (by simp [hc])
        have htv : t ∉ v.reverse := by
          have hdxs := hd
          rw [hxs, List.nodup_append] at hdxs
          intro hc; exact hdxs.2.2 hc (by simp)
        have hyyr : y ∉ yr := (List.nodup_cons.mp hmd).1
        have hvsub : ∀ z ∈ v, z ∈ x :: xr := fun z hz => by
          rw [hxs]; exact List.mem_append_left _ (List.mem_reverse.mpr hz)
        have hred : stringList.PushBackList s l m
            = some ((s.SetNext t (some y)).SetPrev y (some t),
              ⟨l.head, m.tail⟩, ⟨none, none⟩) := by
          simp [stringList.PushBackList, hh, hmh, hlt]
        refine ⟨(s.SetNext t (some y)).SetPrev y (some t), ⟨l.head, m.tail⟩, hred,
          ⟨?_, ?_, ?_⟩, ?_, ?_⟩
        rotate_left 3
        · intro hc; rw [hh] at hc; cases hc
        · intro hc; rw [hmh] at hc; cases hc
        · rw [show ((x :: xr) ++ y :: yr) = v.reverse ++ ([t] ++ y :: yr) by
            rw [hxs]; simp]
          rw [nextChain_append]
          refine ⟨some t, ?_, ?_⟩
          · rw [hxs, nextChain_append] at hn
            obtain ⟨m5, hv5, hm5, ht5⟩ := hn
            rw [hm5] at hv5
            refine nextChain_congr (fun z hz => ?_) hv5
            have hzt : z ≠ t := fun hc => htv (hc ▸ hz)
            simp [hzt]
          · refine ⟨rfl, ?_⟩
            have hc1 : ((s.SetNext t (some y)).SetPrev y (some t)).next t = some y := by
              simp
            rw [hc1]
            refine nextChain_congr (fun z hz => ?_) hmn
            have hzt : z ≠ t := fun hc => hdisj t htxs (hc ▸ hz)
            simp [hzt]
        · rw [show ((x :: xr) ++ y :: yr).reverse = (yr.reverse ++ [y]) ++ t :: v by
            rw [List.reverse_append, hrev, List.reverse_cons]]
          rw [prevChain_append]
          refine ⟨some t, ?_, ?_⟩
          · rw [List.reverse_cons, prevChain_append] at hmp
            obtain ⟨m6, hy6, hm6, hy0⟩ := hmp
            rw [hm6] at hy6
            rw [prevChain_append]
            refine ⟨some y, ?_, ?_⟩
            · refine prevChain_congr (fun z hz => ?_) hy6
              have hzy : z ≠ y := fun hc => hyyr (hc ▸ List.mem_reverse.mp hz)
              simp [hzy]
            · refine ⟨rfl, ?_⟩
              have hc2 : ((s.SetNext t (some y)).SetPrev y (some t)).prev y = some t := by
                simp
              rw [hc2]; rfl
          · refine ⟨rfl, ?_⟩
            have hc3 : ((s.SetNext t (some y)).SetPrev y (some t)).prev t = s.prev t := by
              simp [hty]
            rw [hc3]
            refine prevChain_congr (fun z hz => ?_) hpv
            have hzy : z ≠ y := hyxs z (hvsub z hz)
            simp [hzy]
        · rw [List.nodup_append]
          exact ⟨hd, hmd, fun a ha hb => hdisj a ha hb⟩

theorem nextChain_traverse {s : Mem} {c : Option Nat} {xs : List Nat}
    (h : nextChain s c xs none) :
    ∀ fuel, xs.length ≤ fuel → traverseNext s fuel c = xs := by
  induction xs generalizing c with
  | nil =>
    intro fuel _
    rw [show c = none from h]
    cases fuel <;> rfl
  | cons x r ih =>
    intro fuel hf
    obtain ⟨hc, hr⟩ := h
    cases fuel with
    | zero => simp at hf
    | succ k =>
      rw [hc]
      show x :: traverseNext s k (s.next x) = x :: r
      rw [ih hr k (Nat.succ_le_succ_iff.mp hf)]

theorem prevChain_traverse {s : Mem} {c : Option Nat} {xs : List Nat}
    (h : prevChain s c xs none) :
    ∀ fuel, xs.length ≤ fuel → traversePrev s fuel c = xs := by
  induction xs generalizing c with
  | nil =>
    intro fuel _
    rw [show c = none from h]
    cases fuel <;> rfl
  | cons x r ih =>
    intro fuel hf
    obtain ⟨hc, hr⟩ := h
    cases fuel with
    | zero => simp at hf
    | succ k =>
      rw [hc]
      show x :: traversePrev s k (s.prev x) = x :: r
      rw [ih hr k (Nat.succ_le_succ_iff.mp hf)]

theorem nextChain_len {s : Mem} {c : Option Nat} {xs : List Nat}
    (h : nextChain s c xs none) :
    ∀ fuel, xs.length ≤ fuel → LenAux s fuel c = xs.length := by
  induction xs generalizing c with
  | nil =>
    intro fuel _
    rw [show c = none from h]
    cases fuel <;> rfl
  | cons x r ih =>
    intro fuel hf
    obtain ⟨hc, hr⟩ := h
    cases fuel with
    | zero => simp at hf
    | succ k =>
      rw [hc]
      show LenAux s k (s.next x) + 1 = r.length + 1
      rw [ih hr k (Nat.succ_le_succ_iff.mp hf)]

theorem ListRepr.nil_iff {s : Mem} {l : stringList} {xs : List Nat}
    (h : ListRepr s l xs) :
    (l.head = none ↔ l.tail = none) ∧ (l.head = none ↔ xs.length = 0) := by
  rw [h.head_eq, h.tail_eq]
  cases xs with
  | nil => simp
  | cons x r =>
    have h1 : (x :: r).getLast? ≠ none := by
      have h2 : (x :: r).getLast?.isSome := List.getLast?_isSome.mpr (by simp)
      intro hc; rw [hc] at h2; cases h2
    simp [h1]

theorem ListRepr.adjacent {s : Mem} {l : stringList} {xs : List Nat}
    (h : ListRepr s l xs) {as bs : List Nat} {a b : Nat}
    (hx : xs = as ++ a :: b :: bs) : s.next a = some b ∧ s.prev b = some a := by
  subst hx
  obtain ⟨hn, hp, -⟩ := h
  constructor
  · rw [nextChain_append] at hn
    obtain ⟨m, -, hm, hnb⟩ := hn
    exact hnb.1
  · rw [show (as ++ a :: b :: bs).reverse = bs.reverse ++ b :: a :: as.reverse by simp]
      at hp
    rw [prevChain_append] at hp
    obtain ⟨m2, -, hm2, hp2⟩ := hp
    exact hp2.1

theorem ringRepr_iter {s : Mem} {xs : List Nat} (h : RingRepr s xs) :
    ∀ (k : Nat) (i : Fin xs.length),
      iterNext s k (some (xs.get i))
        = some (xs.get ⟨(i.val + k) % xs.length, Nat.mod_lt _ i.pos⟩) := by
  intro k
  induction k with
  | zero =>
    intro i
    have hfin : (⟨(i.val + 0) % xs.length, Nat.mod_lt _ i.pos⟩ : Fin xs.length) = i :=
      Fin.ext (by simp [Nat.mod_eq_of_lt i.isLt])
    rw [hfin]
    rfl
  | succ k ih =>
    intro i
    have hstep : iterNext s (k + 1) (some (xs.get i))
        = iterNext s k (s.next (xs.get i)) := rfl
    rw [hstep, (h.2.2 i).1, ih (ringIdx i)]
    congr 1
    apply congrArg
    refine Fin.ext ?_
    show ((ringIdx i).val + k) % xs.length = (i.val + (k + 1)) % xs.length
    simp only [ringIdx, Nat.mod_add_mod]
    congr 1
    omega

theorem ringRepr_cycle {s : Mem} {xs : List Nat} {e : Nat}
    (h : RingRepr s xs) (he : e ∈ xs) : iterNext s xs.length (some e) = some e := by
  obtain ⟨i, hi⟩ := List.mem_iff_get.mp he
  subst hi
  rw [ringRepr_iter h xs.length i]
  congr 1
  apply congrArg
  refine Fin.ext ?_
  show (i.val + xs.length) % xs.length = i.val
  rw [Nat.add_mod_right]
  exact Nat.mod_eq_of_lt i.isLt

theorem listRepr_nil (s : Mem) : ListRepr s ⟨none, none⟩ [] :=
  ⟨rfl, rfl, List.nodup_nil⟩

theorem replay_repr : ∀ (ops : List Op) (s : Mem) (l : stringList) (xs : List Nat),
    ListRepr s l xs → validOps s l xs ops →
    ListRepr (replay s l ops).1 (replay s l ops).2 (absReplay xs ops) ∧
      (absReplay xs ops).length + countRem ops = xs.length + countIns ops := by
  intro ops
  induction ops with
  | nil =>
    intro s l xs h _
    exact ⟨h, by simp [absReplay, countIns, countRem]⟩
  | cons op ops ih =>
    intro s l xs h hv
    cases op with
    | pushFront e =>
      obtain ⟨⟨he, -, -⟩, hv2⟩ := hv
      have hstep := ih _ _ _ (pushFront_repr h he) hv2
      refine ⟨hstep.1, ?_⟩
      have hlen := hstep.2
      simp only [List.length_cons] at hlen
      show (absReplay (e :: xs) ops).length + countRem ops
        = xs.length + (countIns ops + 1)
      omega
    | pushBack e =>
      obtain ⟨⟨he, -, -⟩, hv2⟩ := hv
      have hstep := ih _ _ _ (pushBack_repr h he) hv2
      refine ⟨hstep.1, ?_⟩
      have hlen := hstep.2
      simp only [List.length_append, List.length_cons, List.length_nil] at hlen
      show (absReplay (xs ++ [e]) ops).length + countRem ops
        = xs.length + (countIns ops + 1)
      omega
    | remove e =>
      obtain ⟨he, hv2⟩ := hv
      have hstep := ih _ _ _ (remove_erase_repr h he) hv2
      refine ⟨hstep.1, ?_⟩
      have hlen := hstep.2
      have herase : (xs.erase e).length = xs.length - 1 := List.length_erase_of_mem he
      have hpos : 0 < xs.length := List.length_pos.mpr (List.ne_nil_of_mem he)
      rw [herase] at hlen
      simp only [absReplay, countRem, countIns]
      omega

theorem mem_of_head? {ys : List Nat} {x : Nat} (hx : ys.head? = some x) : x ∈ ys := by
  cases ys with
  | nil => cases hx
  | cons c cs =>
    rw [List.head?_cons] at hx
    rw [← Option.some.inj hx]
    simp

theorem mem_of_getLast? {ys : List Nat} {x : Nat} (hx : ys.getLast? = some x) :
    x ∈ ys := by
  rw [← List.head?_reverse] at hx
  exact List.mem_reverse.mp (mem_of_head? hx)

theorem head?_ne_of_not_mem {ys : List Nat} {e : Nat} (hne : e ∉ ys) :
    ys.head? ≠ some e :=
  fun hc => hne (mem_of_head? hc)

theorem getLast?_ne_of_not_mem {ys : List Nat} {e : Nat} (hne : e ∉ ys) :
    ys.getLast? ≠ some e :=
  fun hc => hne (mem_of_getLast? hc)

theorem not_mem_erase_self {xs : List Nat} {e : Nat} (hd : xs.Nodup) :
    e ∉ xs.erase e :=
  fun hc => ((List.Nodup.mem_erase_iff hd).mp hc).1 rfl

theorem Mem.SetNext_self {s : Mem} {x : Nat} {v : Option Nat} (h : s.next x = v) :
    s.SetNext x v = s := by
  refine Mem.ext ?_ rfl
  funext y
  by_cases hy : y = x
  · subst hy; simp [Mem.SetNext, h]
  · simp [Mem.SetNext, hy]

theorem Mem.SetPrev_self {s : Mem} {x : Nat} {v : Option Nat} (h : s.prev x = v) :
    s.SetPrev x v = s := by
  refine Mem.ext rfl ?_
  funext y
  by_cases hy : y = x
  · subst hy; simp [Mem.SetPrev, h]
  · simp [Mem.SetPrev, hy]

theorem remove_detached {s : Mem} {l : stringList} {xs : List Nat} {e : Nat}
    (h : ListRepr s l xs) (he : e ∈ xs) :
    (stringList.Remove s l e).1.next e = none ∧
    (stringList.Remove s l e).1.prev e = none ∧
    (stringList.Remove s l e).2.head ≠ some e ∧
    (stringList.Remove s l e).2.tail ≠ some e := by
  have h' := remove_erase_repr h he
  have hne : e ∉ xs.erase e := not_mem_erase_self h.2.2
  refine ⟨by simp [stringList.Remove], by simp [stringList.Remove], ?_, ?_⟩
  · rw [h'.head_eq]
    exact head?_ne_of_not_mem hne
  · rw [h'.tail_eq]
    exact getLast?_ne_of_not_mem hne

theorem remove_detached_law (s0 : Mem) (l0 : stringList) (e : Nat)
    (hn0 : s0.next e = none) (hp0 : s0.prev e = none)
    (hh0 : l0.head ≠ some e) (ht0 : l0.tail ≠ some e) :
    stringList.Remove s0 l0 e = (s0, l0) := by
  simp only [stringList.Remove, hn0, hp0]
  rw [if_neg hh0, if_neg ht0]
  rw [Mem.SetNext_self hn0, Mem.SetPrev_self hp0]

theorem mem01_repr : ListRepr mem01 ⟨some 0, some 1⟩ [0, 1] :=
  ⟨⟨rfl, rfl, rfl⟩, ⟨rfl, rfl, rfl⟩, by decide⟩

/-- C1: removing a member `e` from a list fully detaches it: afterwards
`e.Next()` and `e.Prev()` are nil, `e` is neither `Front()` nor `Back()`
of the list, and the list now represents its former sequence with `e`
deleted (head and tail updated correctly when `e` was at an end). -/
theorem stringList_remove_spec (s : Mem) (l : stringList) (xs : List Nat) (e : Nat)
    (h : ListRepr s l xs) (he : e ∈ xs) :
    (stringList.Remove s l e).1.next e = none ∧
    (stringList.Remove s l e).1.prev e = none ∧
    (stringList.Remove s l e).2.Front ≠ some e ∧
    (stringList.Remove s l e).2.Back ≠ some e ∧
    ListRepr (stringList.Remove s l e).1 (stringList.Remove s l e).2 (xs.erase e) := by
  obtain ⟨h1, h2, h3, h4⟩ := remove_detached h he
  exact ⟨h1, h2, h3, h4, remove_erase_repr h he⟩

theorem stringList_remove_spec_witness :
    ListRepr mem01 ⟨some 0, some 1⟩ [0, 1] ∧ (0 : Nat) ∈ [0, 1] ∧
    ListRepr (stringList.Remove mem01 ⟨some 0, some 1⟩ 0).1
      (stringList.Remove mem01 ⟨some 0, some 1⟩ 0).2 ([0, 1].erase 0) :=
  ⟨mem01_repr, by decide,
    (stringList_remove_spec mem01 ⟨some 0, some 1⟩ [0, 1] 0 mem01_repr
      (by decide)).2.2.2.2⟩

/-- C9: `Reset` drops both ends of the list to nil (so the list is empty
afterwards) and changes nothing else: every element's `next` and `prev`
field is untouched. -/
theorem stringList_reset_spec (s : Mem) (l : stringList) :
    (stringList.Reset s l).1 = s ∧
    (stringList.Reset s l).2.head = none ∧
    (stringList.Reset s l).2.tail = none ∧
    (stringList.Reset s l).2.Empty = true ∧
    (∀ e, (stringList.Reset s l).1.next e = s.next e ∧
      (stringList.Reset s l).1.prev e = s.prev e) :=
  ⟨rfl, rfl, rfl, rfl, fun _ => ⟨rfl, rfl⟩⟩

/-- C10: `Remove` of a detached element (nil links, not the head or the
tail) changes neither the heap nor the list; consequently `Remove` is
idempotent: removing a member a second time changes nothing. -/
theorem stringList_remove_idempotent (s : Mem) (l : stringList) (xs : List Nat)
    (e : Nat) (h : ListRepr s l xs) (he : e ∈ xs) :
    stringList.Remove (stringList.Remove s l e).1 (stringList.Remove s l e).2 e
      = stringList.Remove s l e ∧
    (∀ s0 l0, s0.next e = none → s0.prev e = none → l0.head ≠ some e →
      l0.tail ≠ some e → stringList.Remove s0 l0 e = (s0, l0)) := by
  obtain ⟨h1, h2, h3, h4⟩ := remove_detached h he
  constructor
  · exact remove_detached_law _ _ _ h1 h2 h3 h4
  · exact fun s0 l0 => remove_detached_law s0 l0 e

theorem stringList_remove_idempotent_witness :
    ListRepr mem01 ⟨some 0, some 1⟩ [0, 1] ∧ (0 : Nat) ∈ [0, 1] ∧
    stringList.Remove (stringList.Remove mem01 ⟨some 0, some 1⟩ 0).1
      (stringList.Remove mem01 ⟨some 0, some 1⟩ 0).2 0
      = stringList.Remove mem01 ⟨some 0, some 1⟩ 0 :=
  ⟨mem01_repr, by decide,
    (stringList_remove_idempotent mem01 ⟨some 0, some 1⟩ [0, 1] 0 mem01_repr
      (by decide)).1⟩

/-- C2: a list satisfying the representation invariant has consistent
head/tail/length, nil outer links, double-linked adjacency, and
traversals of exactly `length` steps; and every operation (`Reset`,
`PushFront`, `PushBack`, `PushFrontList`, `PushBackList`, `InsertAfter`,
`InsertBefore`, `Remove`), under its preconditions, yields a list that
satisfies the invariant again, for the expected sequence. -/
theorem stringList_invariant_spec (s : Mem) (l : stringList) (xs : List Nat)
    (h : ListRepr s l xs) :
    ((l.head = none ↔ l.tail = none) ∧ (l.head = none ↔ xs.length = 0)) ∧
    (∀ x, l.head = some x → s.prev x = none) ∧
    (∀ y, l.tail = some y → s.next y = none) ∧
    (∀ as a b bs, xs = as ++ a :: b :: bs → s.next a = some b ∧ s.prev b = some a) ∧
    (traverseNext s xs.length l.head = xs ∧
      traversePrev s xs.length l.tail = xs.reverse) ∧
    ListRepr (stringList.Reset s l).1 (stringList.Reset s l).2 [] ∧
    (∀ e, e ∉ xs →
      ListRepr (stringList.PushFront s l e).1 (stringList.PushFront s l e).2
        (e :: xs)) ∧
    (∀ e, e ∉ xs →
      ListRepr (stringList.PushBack s l e).1 (stringList.PushBack s l e).2
        (xs ++ [e])) ∧
    (∀ m ys, ListRepr s m ys → (∀ a ∈ xs, a ∉ ys) →
      ∃ s' l', stringList.PushFrontList s l m = some (s', l', ⟨none, none⟩) ∧
        ListRepr s' l' (ys ++ xs)) ∧
    (∀ m ys, ListRepr s m ys → (∀ a ∈ xs, a ∉ ys) →
      ∃ s' l', stringList.PushBackList s l m = some (s', l', ⟨none, none⟩) ∧
        ListRepr s' l' (xs ++ ys)) ∧
    (∀ as b bs e, xs = as ++ b :: bs → e ∉ xs →
      ListRepr (stringList.InsertAfter s l b e).1 (stringList.InsertAfter s l b e).2
        (as ++ b :: e :: bs)) ∧
    (∀ as a bs e, xs = as ++ a :: bs → e ∉ xs →
      ListRepr (stringList.InsertBefore s l a e).1
        (stringList.InsertBefore s l a e).2 (as ++ e :: a :: bs)) ∧
    (∀ e, e ∈ xs →
      ListRepr (stringList.Remove s l e).1 (stringList.Remove s l e).2
        (xs.erase e)) := by
  refine ⟨h.nil_iff, fun x hx => h.prev_head hx, fun y hy => h.next_tail hy,
    fun as a b bs hx => h.adjacent hx,
    ⟨nextChain_traverse h.1 xs.length le_rfl,
      prevChain_traverse h.2.1 xs.length (by simp)⟩,
    listRepr_nil s,
    fun e he => pushFront_repr h he,
    fun e he => pushBack_repr h he,
    fun m ys hm hd => ?_, fun m ys hm hd => ?_,
    fun as b bs e hx he => ?_, fun as a bs e hx he => ?_,
    fun e he => remove_erase_repr h he⟩
  · obtain ⟨s', l', hop, hrep, -⟩ := pushFrontList_repr h hm hd
    exact ⟨s', l', hop, hrep⟩
  · obtain ⟨s', l', hop, hrep, -⟩ := pushBackList_repr h hm hd
    exact ⟨s', l', hop, hrep⟩
  · subst hx; exact insertAfter_repr h he
  · subst hx; exact insertBefore_repr h he

theorem stringList_invariant_spec_witness :
    ListRepr mem01 ⟨some 0, some 1⟩ [0, 1] ∧
    traverseNext mem01 2 (some 0) = [0, 1] ∧
    traversePrev mem01 2 (some 1) = [1, 0] :=
  ⟨mem01_repr,
    (stringList_invariant_spec mem01 ⟨some 0, some 1⟩ [0, 1]
      mem01_repr).2.2.2.2.1.1,
    (stringList_invariant_spec mem01 ⟨some 0, some 1⟩ [0, 1]
      mem01_repr).2.2.2.2.1.2⟩

/-- C3: concatenating list `m` onto `l` with `PushFrontList` or
`PushBackList` empties `m` (its result header is nil/nil, so `Empty()`
holds), the destination then represents `m`'s former sequence before
(`PushFrontList`) or after (`PushBackList`) `l`'s prior sequence, and
when either list was empty the other's head/tail is adopted directly. -/
theorem stringList_concat_spec (s : Mem) (l m : stringList) (xs ys : List Nat)
    (h : ListRepr s l xs) (hm : ListRepr s m ys) (hdisj : ∀ a ∈ xs, a ∉ ys) :
    (∃ s' l', stringList.PushFrontList s l m = some (s', l', ⟨none, none⟩) ∧
      stringList.Empty ⟨none, none⟩ = true ∧ ListRepr s' l' (ys ++ xs) ∧
      (l.head = none → s' = s ∧ l' = ⟨m.head, m.tail⟩) ∧
      (m.head = none → s' = s ∧ l' = l)) ∧
    (∃ s' l', stringList.PushBackList s l m = some (s', l', ⟨none, none⟩) ∧
      stringList.Empty ⟨none, none⟩ = true ∧ ListRepr s' l' (xs ++ ys) ∧
      (l.head = none → s' = s ∧ l' = ⟨m.head, m.tail⟩) ∧
      (m.head = none → s' = s ∧ l' = l)) := by
  constructor
  · obtain ⟨s', l', hop, hrep, hle, hme⟩ := pushFrontList_repr h hm hdisj
    exact ⟨s', l', hop, rfl, hrep, hle, hme⟩
  · obtain ⟨s', l', hop, hrep, hle, hme⟩ := pushBackList_repr h hm hdisj
    exact ⟨s', l', hop, rfl, hrep, hle, hme⟩

theorem mem0156_repr_l : ListRepr mem0156 ⟨some 0, some 1⟩ [0, 1] :=
  ⟨⟨rfl, rfl, rfl⟩, ⟨rfl, rfl, rfl⟩, by decide⟩

theorem mem0156_repr_m : ListRepr mem0156 ⟨some 5, some 6⟩ [5, 6] :=
  ⟨⟨rfl, rfl, rfl⟩, ⟨rfl, rfl, rfl⟩, by decide⟩

theorem stringList_concat_spec_witness :
    ListRepr mem0156 ⟨some 0, some 1⟩ [0, 1] ∧
    ListRepr mem0156 ⟨some 5, some 6⟩ [5, 6] ∧
    (∃ s' l', stringList.PushFrontList mem0156 ⟨some 0, some 1⟩ ⟨some 5, some 6⟩
        = some (s', l', ⟨none, none⟩) ∧
      stringList.Empty ⟨none, none⟩ = true ∧ ListRepr s' l' ([5, 6] ++ [0, 1]) ∧
      ((⟨some 0, some 1⟩ : stringList).head = none →
        s' = mem0156 ∧ l' = ⟨some 5, some 6⟩) ∧
      ((⟨some 5, some 6⟩ : stringList).head = none →
        s' = mem0156 ∧ l' = ⟨some 0, some 1⟩)) :=
  ⟨mem0156_repr_l, mem0156_repr_m,
    (stringList_concat_spec mem0156 ⟨some 0, some 1⟩ ⟨some 5, some 6⟩ [0, 1] [5, 6]
      mem0156_repr_l mem0156_repr_m (by decide)).1⟩

/-- C4: `PushFront e` makes `e` the new head, the sole predecessor of the
old head, with nil `prev`, adopting `e` as tail when the list was empty;
`PushBack` is the mirror image; and pushing `a`, `b`, `c` to the back of
an empty list yields `Front() == a`, `Back() == c`, `Len() == 3`. -/
theorem stringList_push_spec (s : Mem) (l : stringList) (xs : List Nat) (e : Nat)
    (h : ListRepr s l xs) (he : e ∉ xs) :
    ((stringList.PushFront s l e).2.head = some e ∧
     (stringList.PushFront s l e).1.next e = l.head ∧
     (stringList.PushFront s l e).1.prev e = none ∧
     (∀ hd, l.head = some hd → (stringList.PushFront s l e).1.prev hd = some e) ∧
     (l.head = none → (stringList.PushFront s l e).2.tail = some e) ∧
     (l.head ≠ none → (stringList.PushFront s l e).2.tail = l.tail) ∧
     ListRepr (stringList.PushFront s l e).1 (stringList.PushFront s l e).2
       (e :: xs)) ∧
    ((stringList.PushBack s l e).2.tail = some e ∧
     (stringList.PushBack s l e).1.prev e = l.tail ∧
     (stringList.PushBack s l e).1.next e = none ∧
     (∀ t, l.tail = some t → (stringList.PushBack s l e).1.next t = some e) ∧
     (l.tail = none → (stringList.PushBack s l e).2.head = some e) ∧
     (l.tail ≠ none → (stringList.PushBack s l e).2.head = l.head) ∧
     ListRepr (stringList.PushBack s l e).1 (stringList.PushBack s l e).2
       (xs ++ [e])) ∧
    (∀ a b c : Nat, a ≠ b → a ≠ c → b ≠ c → ∀ s0 : Mem,
      (pushThree s0 a b c).2.Front = some a ∧
      (pushThree s0 a b c).2.Back = some c ∧
      stringList.Len (pushThree s0 a b c).1 3 (pushThree s0 a b c).2 = 3) := by
  refine ⟨?_, ?_, ?_⟩
  · cases hlh : l.head with
    | none =>
      refine ⟨?_, ?_, ?_, ?_, ?_, ?_, pushFront_repr h he⟩
      · simp [stringList.PushFront, hlh]
      · simp [stringList.PushFront, hlh]
      · simp [stringList.PushFront, hlh]
      · intro hd hc; cases hc
      · intro _; simp [stringList.PushFront, hlh]
      · intro hc; exact absurd rfl hc
    | some hd0 =>
      have hmem : hd0 ∈ xs := mem_of_head? (by rw [← h.head_eq]; exact hlh)
      have hne : e ≠ hd0 := fun hc => he (hc ▸ hmem)
      refine ⟨?_, ?_, ?_, ?_, ?_, ?_, pushFront_repr h he⟩
      · simp [stringList.PushFront, hlh]
      · simp [stringList.PushFront, hlh]
      · simp [stringList.PushFront, hlh, hne]
      · intro hd hc
        have hhd : hd = hd0 := (Option.some.inj hc).symm
        subst hhd
        simp [stringList.PushFront, hlh]
      · intro hc; cases hc
      · intro _; simp [stringList.PushFront, hlh]
  · cases hlt : l.tail with
    | none =>
      refine ⟨?_, ?_, ?_, ?_, ?_, ?_, pushBack_repr h he⟩
      · simp [stringList.PushBack, hlt]
      · simp [stringList.PushBack, hlt]
      · simp [stringList.PushBack, hlt]
      · intro t hc; cases hc
      · intro _; simp [stringList.PushBack, hlt]
      · intro hc; exact absurd rfl hc
    | some t0 =>
      have hmem : t0 ∈ xs := mem_of_getLast? (by rw [← h.tail_eq]; exact hlt)
      have hne : e ≠ t0 := fun hc => he (hc ▸ hmem)
      refine ⟨?_, ?_, ?_, ?_, ?_, ?_, pushBack_repr h he⟩
      · simp [stringList.PushBack, hlt]
      · simp [stringList.PushBack, hlt]
      · simp [stringList.PushBack, hlt, hne]
      · intro t hc
        have ht : t = t0 := (Option.some.inj hc).symm
        subst ht
        simp [stringList.PushBack, hlt, Ne.symm hne]
      · intro hc; cases hc
      · intro _; simp [stringList.PushBack, hlt]
  · intro a b c hab hac hbc s0
    have h1 : ListRepr (stringList.PushBack s0 ⟨none, none⟩ a).1
        (stringList.PushBack s0 ⟨none, none⟩ a).2 [a] := by
      simpa using pushBack_repr (listRepr_nil s0) (by simp)
    have h2 : ListRepr (pushThree s0 a b c).1 (pushThree s0 a b c).2 [a, b, c] := by
      have hb : b ∉ [a] := by simp [Ne.symm hab]
      have h2a := pushBack_repr h1 hb
      have h2a' : ListRepr (stringList.PushBack (stringList.PushBack s0 ⟨none, none⟩ a).1
          (stringList.PushBack s0 ⟨none, none⟩ a).2 b).1
          (stringList.PushBack (stringList.PushBack s0 ⟨none, none⟩ a).1
          (stringList.PushBack s0 ⟨none, none⟩ a).2 b).2 [a, b] := by simpa using h2a
      have hcm : c ∉ [a, b] := by simp [Ne.symm hac, Ne.symm hbc]
      have h3a := pushBack_repr h2a' hcm
      simpa [pushThree] using h3a
    refine ⟨?_, ?_, ?_⟩
    · have hhd := h2.head_eq
      simpa [stringList.Front] using hhd
    · have htl := h2.tail_eq
      simpa [stringList.Back] using htl
    · exact nextChain_len h2.1 3 (by simp)

theorem stringList_push_spec_witness :
    ListRepr mem01 ⟨some 0, some 1⟩ [0, 1] ∧ (2 : Nat) ∉ [0, 1] ∧
    ListRepr (stringList.PushFront mem01 ⟨some 0, some 1⟩ 2).1
      (stringList.PushFront mem01 ⟨some 0, some 1⟩ 2).2 [2, 0, 1] :=
  ⟨mem01_repr, by decide,
    (stringList_push_spec mem01 ⟨some 0, some 1⟩ [0, 1] 2 mem01_repr
      (by decide)).1.2.2.2.2.2.2⟩

/-- C5: `InsertAfter b e` splices `e` right after the member `b`
(`b.Next() == e`, `e.Prev() == b`, tail updated to `e` when `b` was the
tail) and `InsertBefore a e` right before it (`a.Prev() == e`,
`e.Next() == a`, head updated when `a` was the head), preserving the
represented sequence with `e` inserted at that position. -/
theorem stringList_insert_spec (s : Mem) (l : stringList) (as bs : List Nat)
    (b e : Nat) (h : ListRepr s l (as ++ b :: bs)) (he : e ∉ as ++ b :: bs) :
    ((stringList.InsertAfter s l b e).1.next b = some e ∧
     (stringList.InsertAfter s l b e).1.prev e = some b ∧
     (l.tail = some b → (stringList.InsertAfter s l b e).2.Back = some e) ∧
     ListRepr (stringList.InsertAfter s l b e).1 (stringList.InsertAfter s l b e).2
       (as ++ b :: e :: bs)) ∧
    ((stringList.InsertBefore s l b e).1.prev b = some e ∧
     (stringList.InsertBefore s l b e).1.next e = some b ∧
     (l.head = some b → (stringList.InsertBefore s l b e).2.Front = some e) ∧
     ListRepr (stringList.InsertBefore s l b e).1
       (stringList.InsertBefore s l b e).2 (as ++ e :: b :: bs)) := by
  have heb : e ≠ b := fun hc => he (by simp [hc])
  have hebs : e ∉ bs := fun hc => he (by simp [hc])
  have heas : e ∉ as := fun hc => he (List.mem_append_left _ hc)
  constructor
  · have hn := h.1
    rw [nextChain_append] at hn
    obtain ⟨m1, -, hm1, hnbs⟩ := hn
    cases hbs0 : bs with
    | nil =>
      subst hbs0
      have hnxtb : s.next b = none := hnbs
      refine ⟨?_, ?_, ?_, insertAfter_repr h he⟩
      · simp [stringList.InsertAfter, hnxtb]
      · simp [stringList.InsertAfter, hnxtb]
      · intro _; simp [stringList.InsertAfter, hnxtb, stringList.Back]
    | cons n bs' =>
      subst hbs0
      have hnxtb : s.next b = some n := hnbs.1
      have hen : e ≠ n := fun hc => hebs (by simp [hc])
      refine ⟨?_, ?_, ?_, insertAfter_repr h he⟩
      · simp [stringList.InsertAfter, hnxtb]
      · simp [stringList.InsertAfter, hnxtb, hen]
      · intro htb
        exact absurd (h.next_tail htb) (by simp [hnxtb])
  · have hp := h.2.1
    rw [show (as ++ b :: bs).reverse = bs.reverse ++ b :: as.reverse by simp] at hp
    rw [prevChain_append] at hp
    obtain ⟨m2, -, hm2, hpa⟩ := hp
    cases hra : as.reverse with
    | nil =>
      have hpb : s.prev b = none := by rw [hra] at hpa; exact hpa
      refine ⟨?_, ?_, ?_, insertBefore_repr h he⟩
      · simp [stringList.InsertBefore, hpb]
      · simp [stringList.InsertBefore, hpb]
      · intro _; simp [stringList.InsertBefore, hpb, stringList.Front]
    | cons p w =>
      rw [hra] at hpa
      have hpb : s.prev b = some p := hpa.1
      have hpas : p ∈ as := List.mem_reverse.mp (by rw [hra]; simp)
      have hep : e ≠ p := fun hc => heas (hc ▸ hpas)
      refine ⟨?_, ?_, ?_, insertBefore_repr h he⟩
      · simp [stringList.InsertBefore, hpb]
      · simp [stringList.InsertBefore, hpb, hep]
      · intro hhb
        exact absurd (h.prev_head hhb) (by simp [hpb])

theorem stringList_insert_spec_witness :
    ListRepr mem01 ⟨some 0, some 1⟩ ([0] ++ 1 :: []) ∧ (2 : Nat) ∉ [0] ++ 1 :: [] ∧
    (stringList.InsertAfter mem01 ⟨some 0, some 1⟩ 1 2).1.next 1 = some 2 ∧
    (stringList.InsertAfter mem01 ⟨some 0, some 1⟩ 1 2).1.prev 2 = some 1 ∧
    ListRepr (stringList.InsertAfter mem01 ⟨some 0, some 1⟩ 1 2).1
      (stringList.InsertAfter mem01 ⟨some 0, some 1⟩ 1 2).2 ([0] ++ 1 :: 2 :: []) :=
  ⟨mem01_repr, by decide,
    (stringList_insert_spec mem01 ⟨some 0, some 1⟩ [0] [] 1 2 mem01_repr
      (by decide)).1.1,
    (stringList_insert_spec mem01 ⟨some 0, some 1⟩ [0] [] 1 2 mem01_repr
      (by decide)).1.2.1,
    (stringList_insert_spec mem01 ⟨some 0, some 1⟩ [0] [] 1 2 mem01_repr
      (by decide)).1.2.2.2⟩

/-- C6: replaying any valid sequence of `PushFront`/`PushBack`/`Remove`
operations against an initially empty list yields a consistent list
whose `Len()` equals inserts minus removes, and whose front-to-back
traversal equals the reverse of the back-to-front traversal. -/
theorem stringList_replay_spec (s : Mem) (ops : List Op)
    (hv : validOps s ⟨none, none⟩ [] ops) :
    ∃ xs, ListRepr (replay s ⟨none, none⟩ ops).1 (replay s ⟨none, none⟩ ops).2 xs ∧
      stringList.Len (replay s ⟨none, none⟩ ops).1 (countIns ops)
        (replay s ⟨none, none⟩ ops).2 = countIns ops - countRem ops ∧
      traverseNext (replay s ⟨none, none⟩ ops).1 (countIns ops)
        (replay s ⟨none, none⟩ ops).2.head
      = (traversePrev (replay s ⟨none, none⟩ ops).1 (countIns ops)
          (replay s ⟨none, none⟩ ops).2.tail).reverse := by
  obtain ⟨hrep, hlen⟩ := replay_repr ops s ⟨none, none⟩ [] (listRepr_nil s) hv
  refine ⟨absReplay [] ops, hrep, ?_, ?_⟩
  · have hfuel : (absReplay [] ops).length ≤ countIns ops := by
      simp only [List.length_nil, Nat.zero_add] at hlen
      omega
    have hL := nextChain_len hrep.1 (countIns ops) hfuel
    rw [stringList.Len, hL]
    simp only [List.length_nil, Nat.zero_add] at hlen
    omega
  · have hfuel : (absReplay [] ops).length ≤ countIns ops := by
      simp only [List.length_nil, Nat.zero_add] at hlen
      omega
    rw [nextChain_traverse hrep.1 (countIns ops) hfuel,
      prevChain_traverse hrep.2.1 (countIns ops) (by simpa using hfuel),
      List.reverse_reverse]

/-- C7: in a ring of `n` distinct members, `n` applications of `Next()`
from any member return to it; `RingAdd old nw` inserts `nw` directly
after `old`, so `old.Next() == nw`, `nw.Prev() == old`, and `nw.Next()`
is `old`'s former successor (which is `old` itself for a singleton). -/
theorem stringRing_spec (s : Mem) (xs : List Nat) (e old nw nxt : Nat)
    (hring : RingRepr s xs) (he : e ∈ xs)
    (hnext : s.next old = some nxt) (hnw : nw ≠ old) :
    iterNext s xs.length (some e) = some e ∧
    ∃ s', stringRingAdd s old nw = some s' ∧
      s'.next old = some nw ∧ s'.prev nw = some old ∧ s'.next nw = some nxt := by
  refine ⟨ringRepr_cycle hring he, ?_⟩
  have hred : stringRingAdd s old nw
      = some ((((s.SetPrev nxt (some nw)).SetNext nw (some nxt)).SetPrev nw
        (some old)).SetNext old (some nw)) := by
    simp [stringRingAdd, hnext]
  exact ⟨_, hred, by simp, by simp, by simp [hnw]⟩

theorem ring01_repr : RingRepr ring01 [0, 1] := by
  refine ⟨by simp, by decide, ?_⟩
  intro i
  fin_cases i <;> exact ⟨rfl, rfl⟩

theorem stringRing_spec_witness :
    RingRepr ring01 [0, 1] ∧ (0 : Nat) ∈ [0, 1] ∧ ring01.next 0 = some 1 ∧
    (2 : Nat) ≠ 0 ∧ iterNext ring01 2 (some 0) = some 0 :=
  ⟨ring01_repr, by decide, rfl, by decide,
    (stringRing_spec ring01 [0, 1] 0 0 2 1 ring01_repr (by decide) rfl
      (by decide)).1⟩

/-- C8: `RingRemove e` relinks `e`'s former neighbours to each other and
re-initialises `e` as a singleton ring (`e.Next() == e.Prev() == e`, so
`RingEmpty e` holds); a singleton stays a singleton, and removing from a
two-element ring leaves the survivor a singleton. -/
theorem stringRingRemove_spec (s : Mem) (e nxt prv : Nat)
    (hn : s.next e = some nxt) (hp : s.prev e = some prv) :
    ∃ s', stringRingRemove s e = some s' ∧
      s'.next e = some e ∧ s'.prev e = some e ∧ stringRingEmpty s' e = true ∧
      (prv ≠ e → s'.next prv = some nxt) ∧
      (nxt ≠ e → s'.prev nxt = some prv) ∧
      (nxt = prv → nxt ≠ e → stringRingEmpty s' nxt = true) := by
  have hred : stringRingRemove s e
      = some ((((s.SetPrev nxt (some prv)).SetNext prv (some nxt)).SetNext e
        (some e)).SetPrev e (some e)) := by
    simp [stringRingRemove, stringRingInit, hn, hp]
  refine ⟨_, hred, by simp, by simp, by simp [stringRingEmpty], ?_, ?_, ?_⟩
  · intro hpe; simp [hpe]
  · intro hne; simp [hne]
  · intro heq hne
    subst heq
    simp [stringRingEmpty, hne]

theorem stringRingRemove_spec_witness :
    ring01.next 0 = some 1 ∧ ring01.prev 0 = some 1 ∧
    ∃ s', stringRingRemove ring01 0 = some s' ∧
      s'.next 0 = some 0 ∧ s'.prev 0 = some 0 ∧ stringRingEmpty s' 0 = true ∧
      ((1 : Nat) ≠ 0 → s'.next 1 = some 1) ∧
      ((1 : Nat) ≠ 0 → s'.prev 1 = some 1) ∧
      ((1 : Nat) = 1 → (1 : Nat) ≠ 0 → stringRingEmpty s' 1 = true) :=
  ⟨rfl, rfl, stringRingRemove_spec ring01 0 1 1 rfl rfl⟩

theorem stringList_replay_spec_witness :
    validOps memNil ⟨none, none⟩ []
      [Op.pushBack 0, Op.pushFront 1, Op.remove 0] ∧
    stringList.Len
      (replay memNil ⟨none, none⟩ [Op.pushBack 0, Op.pushFront 1, Op.remove 0]).1 2
      (replay memNil ⟨none, none⟩ [Op.pushBack 0, Op.pushFront 1, Op.remove 0]).2
      = 1 := by
  have hv : validOps memNil ⟨none, none⟩ []
      [Op.pushBack 0, Op.pushFront 1, Op.remove 0] :=
    ⟨⟨by decide, rfl, rfl⟩, ⟨by decide, rfl, rfl⟩, by decide, trivial⟩
  refine ⟨hv, ?_⟩
  obtain ⟨xs, -, hL, -⟩ := stringList_replay_spec memNil _ hv
  exact hL
